import Mathlib

/-!
Shallow embedding of the incremental UTF-8 decoder from `src/lib.rs`
(SimonSapin/rust-utf8).

Bytes are modelled as `Nat` (the Rust program only ever feeds values `< 256`;
where a property depends on that range it carries an explicit hypothesis).
Borrowed slices (`&str` / `&[u8]`) are modelled as `List Nat` of their bytes.
`String` output of the lossy layer is modelled as the list of its UTF-8 bytes,
so that "the same text" is byte-list equality.
-/

namespace Utf8

/-- The table `UTF8_CHAR_WIDTH` from src/lib.rs lines 292-309, expressed by the
ranges of its 256 entries: 1 for 0x00-0x7F, 0 for 0x80-0xC1, 2 for 0xC2-0xDF,
3 for 0xE0-0xEF, 4 for 0xF0-0xF4, 0 for 0xF5-0xFF. -/
def UTF8_CHAR_WIDTH (b : Nat) : Nat :=
  if b < 0x80 then 1
  else if b < 0xC2 then 0
  else if b < 0xE0 then 2
  else if b < 0xF0 then 3
  else if b < 0xF5 then 4
  else 0

/-- `fn width(first_byte: u8) -> u8` (src/lib.rs lines 286-289). -/
def width (first_byte : Nat) : Nat := UTF8_CHAR_WIDTH first_byte

/-- `fn is_continuation_byte(b: u8) -> bool` (src/lib.rs lines 311-316):
`b & 0b1100_0000 == 0b1000_0000`. -/
def is_continuation_byte (b : Nat) : Bool := b &&& 0xC0 == 0x80

/-- `fn valid_three_bytes_sequence_prefix(first, second) -> bool`
(src/lib.rs lines 319-328). The name is abbreviated to `..._start`. -/
def valid_three_bytes_sequence_start (first second : Nat) : Bool :=
  (first == 0xE0 && decide (0xA0 ≤ second) && decide (second ≤ 0xBF)) ||
  (decide (0xE1 ≤ first) && decide (first ≤ 0xEC) &&
    decide (0x80 ≤ second) && decide (second ≤ 0xBF)) ||
  (first == 0xED && decide (0x80 ≤ second) && decide (second ≤ 0x9F)) ||
  (decide (0xEE ≤ first) && decide (first ≤ 0xEF) &&
    decide (0x80 ≤ second) && decide (second ≤ 0xBF))

/-- `fn valid_four_bytes_sequence_prefix(first, second) -> bool`
(src/lib.rs lines 330-337). The name is abbreviated to `..._start`. -/
def valid_four_bytes_sequence_start (first second : Nat) : Bool :=
  (first == 0xF0 && decide (0x90 ≤ second) && decide (second ≤ 0xBF)) ||
  (decide (0xF1 ≤ first) && decide (first ≤ 0xF3) &&
    decide (0x80 ≤ second) && decide (second ≤ 0xBF)) ||
  (first == 0xF4 && decide (0x80 ≤ second) && decide (second ≤ 0x8F))

/-- The check applied to the second byte of a multi-byte sequence, which
depends on the width of the lead byte.  This is the common `match width`
expression of src/lib.rs lines 174-181 and 251-258 (the `_` arm of the Rust
`match` is the 4-byte case). -/
def second_byte_valid (first second : Nat) : Bool :=
  if width first = 2 then is_continuation_byte second
  else if width first = 3 then valid_three_bytes_sequence_start first second
  else valid_four_bytes_sequence_start first second

/-- `struct IncompleteSequence { len, first, second, third: u8 }`
(src/lib.rs lines 47-53).  `len == 0` means no pending sequence.
The `Decoder` struct (line 43) is exactly one `IncompleteSequence`, so it is
not wrapped again here; decoder state is an `IncompleteSequence`. -/
structure IncompleteSequence where
  len : Nat
  first : Nat
  second : Nat
  third : Nat
deriving DecidableEq, Repr

/-- `Decoder::new()` (src/lib.rs lines 58-67): all fields zero. -/
def IncompleteSequence.init : IncompleteSequence := ⟨0, 0, 0, 0⟩

/-- `Decoder::has_incomplete_sequence` (src/lib.rs lines 72-74). -/
def Decoder.has_incomplete_sequence (d : IncompleteSequence) : Bool :=
  decide (d.len > 0)

/-- Outcome of `IncompleteSequence::complete` (src/lib.rs lines 217-283).
`ok ch rest` is the `Ok((ch, &input[position..]))` case, with `ch` the bytes
of the returned `InlineString` (its `Deref` content) and `rest` the unread
part of the input.  `error remaining` is `Err(Result::Error { .. })`,
`incomplete` is `Err(Result::Incomplete)`. -/
inductive CompleteRes where
  | ok : List Nat → List Nat → CompleteRes
  | incomplete : CompleteRes
  | error : List Nat → CompleteRes
deriving DecidableEq, Repr

/-- The part of `IncompleteSequence::complete` that reads the fourth byte
(src/lib.rs lines 270-274) and builds the returned `InlineString`
(lines 277-282).  `pos` is the number of bytes of `input` consumed so far.
The `InlineString` has `buffer = [first, second, third, fourth]` and
`len = width`, so its text is the first `width` bytes of the buffer. -/
def IncompleteSequence.completeFourth (s : IncompleteSequence) (w : Nat)
    (pos : Nat) (input : List Nat) : IncompleteSequence × CompleteRes :=
  if w > 3 then
    match input.get? pos with
    | none => ({ s with len := s.len + pos }, CompleteRes.incomplete)
    | some b4 =>
      if is_continuation_byte b4 then
        ({ s with len := 0 },
          CompleteRes.ok (List.take w [s.first, s.second, s.third, b4])
            (input.drop (pos + 1)))
      else
        ({ s with len := 0 }, CompleteRes.error (input.drop pos))
  else
    ({ s with len := 0 },
      CompleteRes.ok (List.take w [s.first, s.second, s.third, 0])
        (input.drop pos))

/-- The part of `IncompleteSequence::complete` that reads the third byte
(src/lib.rs lines 264-269). -/
def IncompleteSequence.completeThird (s : IncompleteSequence) (w : Nat)
    (pos : Nat) (input : List Nat) : IncompleteSequence × CompleteRes :=
  if w > 2 then
    if s.len < 3 then
      match input.get? pos with
      | none => ({ s with len := s.len + pos }, CompleteRes.incomplete)
      | some b3 =>
        if is_continuation_byte b3 then
          IncompleteSequence.completeFourth { s with third := b3 } w (pos + 1) input
        else
          ({ s with third := b3, len := 0 }, CompleteRes.error (input.drop pos))
    else
      IncompleteSequence.completeFourth s w pos input
  else
    ({ s with len := 0 },
      CompleteRes.ok (List.take w [s.first, s.second, s.third, 0])
        (input.drop pos))

/-- `IncompleteSequence::complete` (src/lib.rs lines 217-283).
With `len == 0` it returns the whole input untouched (line 219-221).
Otherwise it reads the still-missing bytes (second, then third, then fourth,
as required by `width(first)`), re-checking each with the same positional
predicate as the scanner; on a failed check it reports an error whose
remaining input starts at the failing byte; if the input runs out it records
how many bytes were consumed (`len := len + position`) and stays incomplete. -/
def IncompleteSequence.complete (s : IncompleteSequence) (input : List Nat) :
    IncompleteSequence × CompleteRes :=
  if s.len = 0 then
    (s, CompleteRes.ok [] input)
  else
    if s.len < 2 then
      match input.get? 0 with
      | none => (s, CompleteRes.incomplete)
      | some b2 =>
        if second_byte_valid s.first b2 then
          IncompleteSequence.completeThird { s with second := b2 }
            (width s.first) 1 input
        else
          ({ s with second := b2, len := 0 }, CompleteRes.error input)
    else
      IncompleteSequence.completeThird s (width s.first) 0 input

/-- Outcome of the scanning loop of `Decoder::decode` (src/lib.rs lines
93-193), relative to the start of the scanned slice:
* `ok`: the whole slice is well-formed (line 99-105);
* `incomplete s v`: the slice ends inside a multi-byte sequence; `s` is the
  `IncompleteSequence` stored by the `next!` macro (lines 120-135) and `v`
  the length of the well-formed text before it;
* `error v a`: an ill-formed sequence was found (`check!`, lines 137-151);
  `v` is the length of the well-formed text before it and `a` the offset of
  `remaining_input_after_error` (`position + current_sequence_len`). -/
inductive ScanRes where
  | ok : ScanRes
  | incomplete : IncompleteSequence → Nat → ScanRes
  | error : Nat → Nat → ScanRes
deriving DecidableEq, Repr

/-- Shift the offsets of a `ScanRes` by `k`: scanning `input` from position
`k` is scanning `input.drop k` and shifting (the loop of `Decoder::decode`
tracks an absolute `position`; this embedding scans the remaining suffix). -/
def ScanRes.shift (k : Nat) : ScanRes → ScanRes
  | ScanRes.ok => ScanRes.ok
  | ScanRes.incomplete s v => ScanRes.incomplete s (v + k)
  | ScanRes.error v a => ScanRes.error (v + k) (a + k)

/-- The scanning loop of `Decoder::decode` (src/lib.rs lines 93-193).
ASCII bytes advance by one; a lead byte of width 0 is an error of length 1;
otherwise the next `width - 1` bytes are fetched (stopping incomplete if the
input ends) and checked with the positional predicates, an error resuming at
the first byte that breaks the pattern (`current_sequence_len` of the failing
`check!`); a fully validated sequence advances by `width`. -/
def scan : List Nat → ScanRes
  | [] => ScanRes.ok
  | first :: rest =>
    if first < 128 then
      (scan rest).shift 1
    else
      if width first = 0 then ScanRes.error 0 1
      else
        match rest with
        | [] => ScanRes.incomplete ⟨1, first, 0, 0⟩ 0
        | second :: rest2 =>
          if second_byte_valid first second then
            if width first > 2 then
              match rest2 with
              | [] => ScanRes.incomplete ⟨2, first, second, 0⟩ 0
              | third :: rest3 =>
                if is_continuation_byte third then
                  if width first > 3 then
                    match rest3 with
                    | [] => ScanRes.incomplete ⟨3, first, second, third⟩ 0
                    | fourth :: rest4 =>
                      if is_continuation_byte fourth then
                        (scan rest4).shift 4
                      else ScanRes.error 0 3
                  else (scan rest3).shift 3
                else ScanRes.error 0 2
            else (scan rest2).shift 2
          else ScanRes.error 0 1

/-- `enum Result` (src/lib.rs lines 197-214), with
`remaining_input_after_error` carried by the `error` case. -/
inductive DecodeRes where
  | ok : DecodeRes
  | incomplete : DecodeRes
  | error : List Nat → DecodeRes
deriving DecidableEq, Repr

/-- `Decoder::decode` (src/lib.rs lines 87-194).  Returns the new decoder
state together with the Rust return triple: the `InlineString` bytes, the
bytes of the borrowed well-formed `&str` slice, and the `Result`. -/
def Decoder.decode (d : IncompleteSequence) (input : List Nat) :
    IncompleteSequence × List Nat × List Nat × DecodeRes :=
  match IncompleteSequence.complete d input with
  | (d', CompleteRes.incomplete) => (d', [], [], DecodeRes.incomplete)
  | (d', CompleteRes.error rem) => (d', [], [], DecodeRes.error rem)
  | (d', CompleteRes.ok ch rest) =>
    match scan rest with
    | ScanRes.ok => (d', ch, rest, DecodeRes.ok)
    | ScanRes.incomplete s v => (s, ch, rest.take v, DecodeRes.incomplete)
    | ScanRes.error v a => (d', ch, rest.take v, DecodeRes.error (rest.drop a))

/-- The UTF-8 bytes of `REPLACEMENT_CHARACTER` = `"\u{FFFD}"`
(src/lib.rs line 8). -/
def replacement : List Nat := [0xEF, 0xBF, 0xBD]

theorem scan_nil : scan [] = ScanRes.ok := rfl

theorem scan_ascii (b : Nat) (l : List Nat) (h : b < 128) :
    scan (b :: l) = (scan l).shift 1 := by
  rw [scan.eq_def]; simp [h]

theorem scan_w0 (b : Nat) (l : List Nat) (h1 : ¬ b < 128) (h2 : width b = 0) :
    scan (b :: l) = ScanRes.error 0 1 := by
  rw [scan.eq_def]; simp [h1, h2]

theorem scan_one (b : Nat) (h1 : ¬ b < 128) (h2 : width b ≠ 0) :
    scan [b] = ScanRes.incomplete ⟨1, b, 0, 0⟩ 0 := by
  rw [scan.eq_def]; simp [h1, h2]

theorem scan_bad2 (f s : Nat) (l : List Nat) (h1 : ¬ f < 128)
    (h2 : width f ≠ 0) (h3 : ¬ second_byte_valid f s = true) :
    scan (f :: s :: l) = ScanRes.error 0 1 := by
  rw [scan.eq_def]; simp [h1, h2, h3]

theorem scan_two_done (f s : Nat) (l : List Nat) (h1 : ¬ f < 128)
    (h2 : width f ≠ 0) (h3 : second_byte_valid f s = true)
    (h4 : ¬ width f > 2) :
    scan (f :: s :: l) = (scan l).shift 2 := by
  rw [scan.eq_def]; simp [h1, h2, h3, h4]

theorem scan_two_end (f s : Nat) (h1 : ¬ f < 128)
    (h2 : width f ≠ 0) (h3 : second_byte_valid f s = true)
    (h4 : width f > 2) :
    scan [f, s] = ScanRes.incomplete ⟨2, f, s, 0⟩ 0 := by
  rw [scan.eq_def]; simp [h1, h2, h3, h4]

theorem scan_bad3 (f s t : Nat) (l : List Nat) (h1 : ¬ f < 128)
    (h2 : width f ≠ 0) (h3 : second_byte_valid f s = true)
    (h4 : width f > 2) (h5 : ¬ is_continuation_byte t = true) :
    scan (f :: s :: t :: l) = ScanRes.error 0 2 := by
  rw [scan.eq_def]; simp [h1, h2, h3, h4, h5]

theorem scan_three_done (f s t : Nat) (l : List Nat) (h1 : ¬ f < 128)
    (h2 : width f ≠ 0) (h3 : second_byte_valid f s = true)
    (h4 : width f > 2) (h5 : is_continuation_byte t = true)
    (h6 : ¬ width f > 3) :
    scan (f :: s :: t :: l) = (scan l).shift 3 := by
  rw [scan.eq_def]; simp [h1, h2, h3, h4, h5, h6]

theorem scan_three_end (f s t : Nat) (h1 : ¬ f < 128)
    (h2 : width f ≠ 0) (h3 : second_byte_valid f s = true)
    (h4 : width f > 2) (h5 : is_continuation_byte t = true)
    (h6 : width f > 3) :
    scan [f, s, t] = ScanRes.incomplete ⟨3, f, s, t⟩ 0 := by
  rw [scan.eq_def]; simp [h1, h2, h3, h4, h5, h6]

theorem scan_bad4 (f s t u : Nat) (l : List Nat) (h1 : ¬ f < 128)
    (h2 : width f ≠ 0) (h3 : second_byte_valid f s = true)
    (h4 : width f > 2) (h5 : is_continuation_byte t = true)
    (h6 : width f > 3) (h7 : ¬ is_continuation_byte u = true) :
    scan (f :: s :: t :: u :: l) = ScanRes.error 0 3 := by
  rw [scan.eq_def]; simp [h1, h2, h3, h4, h5, h6, h7]

theorem scan_four_done (f s t u : Nat) (l : List Nat) (h1 : ¬ f < 128)
    (h2 : width f ≠ 0) (h3 : second_byte_valid f s = true)
    (h4 : width f > 2) (h5 : is_continuation_byte t = true)
    (h6 : width f > 3) (h7 : is_continuation_byte u = true) :
    scan (f :: s :: t :: u :: l) = (scan l).shift 4 := by
  rw [scan.eq_def]; simp [h1, h2, h3, h4, h5, h6, h7]

theorem shift_error_inv (r : ScanRes) (k v a : Nat)
    (h : r.shift k = ScanRes.error v a) :
    ∃ v2 a2, r = ScanRes.error v2 a2 ∧ v = v2 + k ∧ a = a2 + k := by
  cases r <;> simp [ScanRes.shift] at h
  exact ⟨_, _, rfl, h.1.symm, h.2.symm⟩

theorem scan_error_facts (input : List Nat) :
    ∀ v a, scan input = ScanRes.error v a → v < a ∧ a ≤ input.length := by
  induction input using scan.induct with
  | case1 =>
    intro v a h
    rw [scan_nil] at h
    simp at h
  | case2 b rest hlt ih =>
    intro v a h
    rw [scan_ascii b rest hlt] at h
    obtain ⟨v2, a2, hs, rfl, rfl⟩ := shift_error_inv _ _ _ _ h
    have := ih v2 a2 hs
    simp only [List.length_cons]
    omega
  | case3 b rest hlt hw =>
    intro v a h
    rw [scan_w0 b rest hlt hw] at h
    simp only [ScanRes.error.injEq] at h
    obtain ⟨rfl, rfl⟩ := h
    simp
  | case4 b hlt hw =>
    intro v a h
    rw [scan_one b hlt hw] at h
    simp at h
  | case5 f hlt hw s hv hgt =>
    intro v a h
    rw [scan_two_end f s hlt hw hv hgt] at h
    simp at h
  | case6 f hlt hw s hv hgt t hc hgt3 =>
    intro v a h
    rw [scan_three_end f s t hlt hw hv hgt hc hgt3] at h
    simp at h
  | case7 f hlt hw s hv hgt t hc hgt3 u rest hc4 ih =>
    intro v a h
    rw [scan_four_done f s t u rest hlt hw hv hgt hc hgt3 hc4] at h
    obtain ⟨v2, a2, hs, rfl, rfl⟩ := shift_error_inv _ _ _ _ h
    have := ih v2 a2 hs
    simp only [List.length_cons]
    omega
  | case8 f hlt hw s hv hgt t hc hgt3 u rest hc4 =>
    intro v a h
    rw [scan_bad4 f s t u rest hlt hw hv hgt hc hgt3 hc4] at h
    simp only [ScanRes.error.injEq] at h
    obtain ⟨rfl, rfl⟩ := h
    simp only [List.length_cons]
    omega
  | case9 f hlt hw s hv hgt t rest hc hle ih =>
    intro v a h
    rw [scan_three_done f s t rest hlt hw hv hgt hc hle] at h
    obtain ⟨v2, a2, hs, rfl, rfl⟩ := shift_error_inv _ _ _ _ h
    have := ih v2 a2 hs
    simp only [List.length_cons]
    omega
  | case10 f hlt hw s hv hgt t rest hc =>
    intro v a h
    rw [scan_bad3 f s t rest hlt hw hv hgt hc] at h
    simp only [ScanRes.error.injEq] at h
    obtain ⟨rfl, rfl⟩ := h
    simp only [List.length_cons]
    omega
  | case11 f hlt hw s rest hv hle ih =>
    intro v a h
    rw [scan_two_done f s rest hlt hw hv hle] at h
    obtain ⟨v2, a2, hs, rfl, rfl⟩ := shift_error_inv _ _ _ _ h
    have := ih v2 a2 hs
    simp only [List.length_cons]
    omega
  | case12 f hlt hw s rest hv =>
    intro v a h
    rw [scan_bad2 f s rest hlt hw hv] at h
    simp only [ScanRes.error.injEq] at h
    obtain ⟨rfl, rfl⟩ := h
    simp only [List.length_cons]
    omega

theorem completeFourth_error_facts (s : IncompleteSequence) (w pos : Nat)
    (input : List Nat) (d' : IncompleteSequence) (rem : List Nat)
    (h : IncompleteSequence.completeFourth s w pos input =
      (d', CompleteRes.error rem)) :
    d'.len = 0 ∧ rem.length ≤ input.length := by
  unfold IncompleteSequence.completeFourth at h
  split at h
  · split at h
    · simp at h
    · split at h
      · simp at h
      · obtain ⟨h1, h2⟩ := Prod.mk.injEq .. ▸ h
        cases h2
        constructor
        · rw [← h1]
        · simp
  · simp at h

theorem completeFourth_ok_facts (s : IncompleteSequence) (w pos : Nat)
    (input : List Nat) (d' : IncompleteSequence) (ch rest : List Nat)
    (h : IncompleteSequence.completeFourth s w pos input =
      (d', CompleteRes.ok ch rest)) :
    d'.len = 0 ∧ ∃ p, pos ≤ p ∧ rest = input.drop p := by
  unfold IncompleteSequence.completeFourth at h
  split at h
  · split at h
    · simp at h
    · split at h
      · obtain ⟨h1, h2⟩ := Prod.mk.injEq .. ▸ h
        cases h2
        refine ⟨by rw [← h1], pos + 1, by omega, rfl⟩
      · simp at h
  · obtain ⟨h1, h2⟩ := Prod.mk.injEq .. ▸ h
    cases h2
    exact ⟨by rw [← h1], pos, le_refl _, rfl⟩

theorem completeThird_error_facts (s : IncompleteSequence) (w pos : Nat)
    (input : List Nat) (d' : IncompleteSequence) (rem : List Nat)
    (h : IncompleteSequence.completeThird s w pos input =
      (d', CompleteRes.error rem)) :
    d'.len = 0 ∧ rem.length ≤ input.length := by
  unfold IncompleteSequence.completeThird at h
  split at h
  · split at h
    · split at h
      · simp at h
      · split at h
        · exact completeFourth_error_facts _ _ _ _ _ _ h
        · obtain ⟨h1, h2⟩ := Prod.mk.injEq .. ▸ h
          cases h2
          constructor
          · rw [← h1]
          · simp
    · exact completeFourth_error_facts _ _ _ _ _ _ h
  · simp at h

theorem completeThird_ok_facts (s : IncompleteSequence) (w pos : Nat)
    (input : List Nat) (d' : IncompleteSequence) (ch rest : List Nat)
    (h : IncompleteSequence.completeThird s w pos input =
      (d', CompleteRes.ok ch rest)) :
    d'.len = 0 ∧ ∃ p, pos ≤ p ∧ rest = input.drop p := by
  unfold IncompleteSequence.completeThird at h
  split at h
  · split at h
    · split at h
      · simp at h
      · split at h
        · obtain ⟨h1, ⟨p, hp, hr⟩⟩ := completeFourth_ok_facts _ _ _ _ _ _ _ h
          exact ⟨h1, p, by omega, hr⟩
        · simp at h
    · exact completeFourth_ok_facts _ _ _ _ _ _ _ h
  · obtain ⟨h1, h2⟩ := Prod.mk.injEq .. ▸ h
    cases h2
    exact ⟨by rw [← h1], pos, le_refl _, rfl⟩

theorem complete_len_zero (d : IncompleteSequence) (input : List Nat)
    (h : d.len = 0) :
    IncompleteSequence.complete d input = (d, CompleteRes.ok [] input) := by
  unfold IncompleteSequence.complete
  rw [if_pos h]

theorem complete_error_facts (d : IncompleteSequence) (input : List Nat)
    (d' : IncompleteSequence) (rem : List Nat)
    (h : IncompleteSequence.complete d input = (d', CompleteRes.error rem)) :
    d.len ≠ 0 ∧ d'.len = 0 ∧ rem.length ≤ input.length := by
  unfold IncompleteSequence.complete at h
  split at h
  · simp at h
  · constructor
    · assumption
    · split at h
      · split at h
        · simp at h
        · split at h
          · exact completeThird_error_facts _ _ _ _ _ _ h
          · obtain ⟨h1, h2⟩ := Prod.mk.injEq .. ▸ h
            cases h2
            exact ⟨by rw [← h1], le_refl _⟩
      · exact completeThird_error_facts _ _ _ _ _ _ h

theorem complete_ok_facts (d : IncompleteSequence) (input : List Nat)
    (d' : IncompleteSequence) (ch rest : List Nat)
    (h : IncompleteSequence.complete d input = (d', CompleteRes.ok ch rest)) :
    (d.len = 0 ∧ d' = d ∧ ch = [] ∧ rest = input) ∨
    (d.len ≠ 0 ∧ d'.len = 0 ∧ ∃ p, rest = input.drop p) := by
  unfold IncompleteSequence.complete at h
  split at h
  · left
    obtain ⟨h1, h2⟩ := Prod.mk.injEq .. ▸ h
    cases h2
    exact ⟨by assumption, h1.symm, rfl, rfl⟩
  · right
    constructor
    · assumption
    · split at h
      · split at h
        · simp at h
        · split at h
          · obtain ⟨h1, ⟨p, _, hr⟩⟩ := completeThird_ok_facts _ _ _ _ _ _ _ h
            exact ⟨h1, p, hr⟩
          · simp at h
      · obtain ⟨h1, ⟨p, _, hr⟩⟩ := completeThird_ok_facts _ _ _ _ _ _ _ h
        exact ⟨h1, p, hr⟩

theorem scan_error_ne_nil (input : List Nat) (v a : Nat)
    (h : scan input = ScanRes.error v a) : input ≠ [] := by
  intro hnil
  rw [hnil] at h
  simp [scan] at h

/-- The (termination) facts about a `Decoder::decode` call that reports an
error: the decoder is left with no pending sequence, and the remaining input
is no longer than the chunk (strictly shorter when the call started with no
pending sequence). -/
theorem decode_error_facts (d : IncompleteSequence) (input : List Nat)
    (d' : IncompleteSequence) (ch pre rem : List Nat)
    (h : Decoder.decode d input = (d', ch, pre, DecodeRes.error rem)) :
    d'.len = 0 ∧ rem.length ≤ input.length ∧
      (d.len = 0 → rem.length < input.length) := by
  unfold Decoder.decode at h
  split at h
  · simp_all
  · rename_i heq
    obtain ⟨h1, h2⟩ := Prod.mk.injEq .. ▸ h
    cases h2
    obtain ⟨_, h3, h4⟩ := complete_error_facts _ _ _ _ heq
    exact ⟨h1 ▸ h3, h4, by simp_all⟩
  · rename_i d0 ch0 rest heq
    split at h
    · simp at h
    · simp at h
    · rename_i v a hs
      obtain ⟨h1, h2⟩ := Prod.mk.injEq .. ▸ h
      obtain ⟨rfl, rfl, h2⟩ := Prod.mk.injEq .. ▸ h2
      cases h2
      have hne := scan_error_ne_nil _ _ _ hs
      have hlen : 0 < rest.length := List.length_pos.mpr hne
      obtain ⟨hva, hal⟩ := scan_error_facts _ _ _ hs
      rcases complete_ok_facts _ _ _ _ _ heq with ⟨hd0, hdd, _, hrest⟩ | ⟨hd0, hd1, p, hrest⟩
      · subst hrest
        refine ⟨h1 ▸ hdd ▸ hd0, by simp, fun _ => ?_⟩
        simp only [List.length_drop]
        omega
      · constructor
        · rw [← h1]; exact hd1
        · have : rest.length ≤ input.length := by
            rw [hrest]; simp
          constructor
          · simp; omega
          · intro h0; exact absurd h0 hd0

/-- `LossyDecoder::feed` (src/lib.rs lines 381-398): decode, push the
reconstructed code point and the well-formed slice (pushing nothing when they
are empty, which concatenation renders automatically), and on an error push
the replacement character and loop on the remaining input. -/
def LossyDecoder.feed (d : IncompleteSequence) (input : List Nat) :
    IncompleteSequence × List Nat :=
  match h : Decoder.decode d input with
  | (d', ch, s, DecodeRes.ok) => (d', ch ++ s)
  | (d', ch, s, DecodeRes.incomplete) => (d', ch ++ s)
  | (d', ch, s, DecodeRes.error rem) =>
    let r := LossyDecoder.feed d' rem
    (r.1, ch ++ s ++ replacement ++ r.2)
termination_by 2 * input.length + (if d.len = 0 then 0 else 1)
decreasing_by
  obtain ⟨h1, h2, h3⟩ := decode_error_facts d input _ _ _ _ h
  by_cases h0 : d.len = 0 <;> simp [h0, h1] <;> omega

/-- What `<LossyDecoder as Drop>::drop` (src/lib.rs lines 401-408) pushes to
the callback at end of stream: the replacement character if a sequence is
still pending, nothing otherwise. -/
def LossyDecoder.dropOutput (d : IncompleteSequence) : List Nat :=
  if Decoder.has_incomplete_sequence d then replacement else []

/-- Feed a list of chunks in order into a lossy decoder, returning the final
state and the concatenation of everything pushed to the callback. -/
def feedAll (d : IncompleteSequence) :
    List (List Nat) → IncompleteSequence × List Nat
  | [] => (d, [])
  | c :: cs =>
    let r := LossyDecoder.feed d c
    let r2 := feedAll r.1 cs
    (r2.1, r.2 ++ r2.2)

/-- The full lossy pipeline: a fresh `LossyDecoder`, `feed` on each chunk in
order, then the decoder is dropped (end-of-stream finalization).  The result
is the concatenated text pushed to the callback, as UTF-8 bytes. -/
def lossyRun (chunks : List (List Nat)) : List Nat :=
  let r := feedAll IncompleteSequence.init chunks
  r.2 ++ LossyDecoder.dropOutput r.1


/-! ### A byte-at-a-time reference machine

`step` consumes one input byte in one decoder state and produces the next
state and the lossy text emitted for that byte.  It is a proof device: the
theorem `feed_eq_stepFold` below shows that `LossyDecoder.feed` computes
exactly a fold of `step` over the chunk bytes, which makes the lossy output
independent of how the byte stream is cut into chunks. -/

/-- One lossy step on a byte with no pending sequence: ASCII is emitted as
is, a byte that cannot start a sequence is replaced, a lead byte becomes a
pending sequence. -/
def stepZero (b : Nat) : IncompleteSequence × List Nat :=
  if b < 128 then (IncompleteSequence.init, [b])
  else if width b = 0 then (IncompleteSequence.init, replacement)
  else (⟨1, b, 0, 0⟩, [])

/-- One lossy step on a byte: extend or resolve the pending sequence using
the same positional predicates as the decoder; when the byte breaks the
pattern, the pending bytes are replaced and the byte is reprocessed fresh. -/
def step (d : IncompleteSequence) (b : Nat) : IncompleteSequence × List Nat :=
  if d.len = 0 then stepZero b
  else if d.len = 1 then
    if second_byte_valid d.first b then
      if width d.first > 2 then (⟨2, d.first, b, 0⟩, [])
      else (IncompleteSequence.init, [d.first, b])
    else ((stepZero b).1, replacement ++ (stepZero b).2)
  else if d.len = 2 then
    if is_continuation_byte b then
      if width d.first > 3 then (⟨3, d.first, d.second, b⟩, [])
      else (IncompleteSequence.init, [d.first, d.second, b])
    else ((stepZero b).1, replacement ++ (stepZero b).2)
  else
    if is_continuation_byte b then
      (IncompleteSequence.init, [d.first, d.second, d.third, b])
    else ((stepZero b).1, replacement ++ (stepZero b).2)

/-- Fold `step` over a byte list, concatenating the emitted text. -/
def stepFold (d : IncompleteSequence) : List Nat → IncompleteSequence × List Nat
  | [] => (d, [])
  | b :: l =>
    let r := step d b
    let r2 := stepFold r.1 l
    (r2.1, r.2 ++ r2.2)

theorem stepFold_append (d : IncompleteSequence) (a b : List Nat) :
    stepFold d (a ++ b) =
      ((stepFold (stepFold d a).1 b).1,
        (stepFold d a).2 ++ (stepFold (stepFold d a).1 b).2) := by
  induction a generalizing d with
  | nil => simp [stepFold]
  | cons x xs ih => simp [stepFold, ih]

/-- The observable part of a decoder state: the fields of an
`IncompleteSequence` beyond its recorded length are dead storage (they are
overwritten before being read), so two states agreeing up to `obs` behave
identically. -/
def IncompleteSequence.obs (s : IncompleteSequence) : IncompleteSequence :=
  if s.len = 0 then ⟨0, 0, 0, 0⟩
  else if s.len = 1 then ⟨1, s.first, 0, 0⟩
  else if s.len = 2 then ⟨2, s.first, s.second, 0⟩
  else ⟨s.len, s.first, s.second, s.third⟩

theorem step_init (b : Nat) :
    step IncompleteSequence.init b = stepZero b := by
  simp [step, IncompleteSequence.init]

theorem obs_len (s : IncompleteSequence) : s.obs.len = s.len := by
  unfold IncompleteSequence.obs
  split
  · simp_all
  · split
    · simp_all
    · split
      · simp_all
      · simp

/-- Decoder states reachable by the decoder: the recorded length is below
the width of the recorded lead byte. -/
def IncompleteSequence.WF (s : IncompleteSequence) : Prop :=
  s.len = 0 ∨ (0 < s.len ∧ s.len < width s.first)

theorem init_WF : IncompleteSequence.init.WF := Or.inl rfl

theorem init_obs : IncompleteSequence.init.obs = IncompleteSequence.init := rfl

theorem obs_len_zero (s : IncompleteSequence) (h : s.len = 0) :
    s.obs = IncompleteSequence.init := by
  unfold IncompleteSequence.obs
  rw [if_pos h]
  rfl

/-- Scanning a chunk from a fresh state agrees with folding `step` over it:
the fold ends in the state the scanner stores, having emitted the
well-formed prefix, and on an error it emits the replacement character and
goes on exactly at `remaining_input_after_error`. -/
theorem scanStep (input : List Nat) :
    stepFold IncompleteSequence.init input =
      match scan input with
      | ScanRes.ok => (IncompleteSequence.init, input)
      | ScanRes.incomplete s v => (s, input.take v)
      | ScanRes.error v a =>
        ((stepFold IncompleteSequence.init (input.drop a)).1,
          input.take v ++ replacement ++
            (stepFold IncompleteSequence.init (input.drop a)).2) := by
  induction input using scan.induct with
  | case1 =>
    rw [scan_nil]
    simp [stepFold]
  | case2 b rest hlt ih =>
    rw [scan_ascii b rest hlt]
    have hz : step IncompleteSequence.init b = (IncompleteSequence.init, [b]) := by
      simp [step, stepZero, IncompleteSequence.init, hlt]
    cases hs : scan rest with
    | ok =>
      rw [hs] at ih
      simp [ScanRes.shift, stepFold, hz, ih]
    | incomplete s v =>
      rw [hs] at ih
      simp [ScanRes.shift, stepFold, hz, ih]
    | error v a =>
      rw [hs] at ih
      simp [ScanRes.shift, stepFold, hz, ih]
  | case3 b rest hlt hw =>
    rw [scan_w0 b rest hlt hw]
    have hz : step IncompleteSequence.init b = (IncompleteSequence.init, replacement) := by
      simp [step, stepZero, IncompleteSequence.init, hlt, hw]
    simp [stepFold, hz]
  | case4 b hlt hw =>
    rw [scan_one b hlt hw]
    have hz : step IncompleteSequence.init b = (⟨1, b, 0, 0⟩, []) := by
      simp [step, stepZero, IncompleteSequence.init, hlt, hw]
    simp [stepFold, hz]
  | case5 f hlt hw s hv hgt =>
    rw [scan_two_end f s hlt hw hv hgt]
    have hz : step IncompleteSequence.init f = (⟨1, f, 0, 0⟩, []) := by
      simp [step, stepZero, IncompleteSequence.init, hlt, hw]
    have h2 : step ⟨1, f, 0, 0⟩ s = (⟨2, f, s, 0⟩, []) := by
      simp [step, hv, hgt]
    simp [stepFold, hz, h2]
  | case6 f hlt hw s hv hgt t hc hgt3 =>
    rw [scan_three_end f s t hlt hw hv hgt hc hgt3]
    have hz : step IncompleteSequence.init f = (⟨1, f, 0, 0⟩, []) := by
      simp [step, stepZero, IncompleteSequence.init, hlt, hw]
    have h2 : step ⟨1, f, 0, 0⟩ s = (⟨2, f, s, 0⟩, []) := by
      simp [step, hv, hgt]
    have h3 : step ⟨2, f, s, 0⟩ t = (⟨3, f, s, t⟩, []) := by
      simp [step, hc, hgt3]
    simp [stepFold, hz, h2, h3]
  | case7 f hlt hw s hv hgt t hc hgt3 u rest hc4 ih =>
    rw [scan_four_done f s t u rest hlt hw hv hgt hc hgt3 hc4]
    have hz : step IncompleteSequence.init f = (⟨1, f, 0, 0⟩, []) := by
      simp [step, stepZero, IncompleteSequence.init, hlt, hw]
    have h2 : step ⟨1, f, 0, 0⟩ s = (⟨2, f, s, 0⟩, []) := by
      simp [step, hv, hgt]
    have h3 : step ⟨2, f, s, 0⟩ t = (⟨3, f, s, t⟩, []) := by
      simp [step, hc, hgt3]
    have h4 : step ⟨3, f, s, t⟩ u = (IncompleteSequence.init, [f, s, t, u]) := by
      simp [step, hc4]
    cases hs : scan rest with
    | ok =>
      rw [hs] at ih
      simp [ScanRes.shift, stepFold, hz, h2, h3, h4, ih]
    | incomplete s2 v =>
      rw [hs] at ih
      simp [ScanRes.shift, stepFold, hz, h2, h3, h4, ih]
    | error v a =>
      rw [hs] at ih
      simp [ScanRes.shift, stepFold, hz, h2, h3, h4, ih]
  | case8 f hlt hw s hv hgt t hc hgt3 u rest hc4 =>
    rw [scan_bad4 f s t u rest hlt hw hv hgt hc hgt3 hc4]
    have hz : step IncompleteSequence.init f = (⟨1, f, 0, 0⟩, []) := by
      simp [step, stepZero, IncompleteSequence.init, hlt, hw]
    have h2 : step ⟨1, f, 0, 0⟩ s = (⟨2, f, s, 0⟩, []) := by
      simp [step, hv, hgt]
    have h3 : step ⟨2, f, s, 0⟩ t = (⟨3, f, s, t⟩, []) := by
      simp [step, hc, hgt3]
    have h4 : step ⟨3, f, s, t⟩ u =
        ((stepZero u).1, replacement ++ (stepZero u).2) := by
      simp [step, hc4]
    simp [stepFold, hz, h2, h3, h4, step_init]
  | case9 f hlt hw s hv hgt t rest hc hle ih =>
    rw [scan_three_done f s t rest hlt hw hv hgt hc hle]
    have hz : step IncompleteSequence.init f = (⟨1, f, 0, 0⟩, []) := by
      simp [step, stepZero, IncompleteSequence.init, hlt, hw]
    have h2 : step ⟨1, f, 0, 0⟩ s = (⟨2, f, s, 0⟩, []) := by
      simp [step, hv, hgt]
    have h3 : step ⟨2, f, s, 0⟩ t = (IncompleteSequence.init, [f, s, t]) := by
      simp [step, hc, hle]
    cases hs : scan rest with
    | ok =>
      rw [hs] at ih
      simp [ScanRes.shift, stepFold, hz, h2, h3, ih]
    | incomplete s2 v =>
      rw [hs] at ih
      simp [ScanRes.shift, stepFold, hz, h2, h3, ih]
    | error v a =>
      rw [hs] at ih
      simp [ScanRes.shift, stepFold, hz, h2, h3, ih]
  | case10 f hlt hw s hv hgt t rest hc =>
    rw [scan_bad3 f s t rest hlt hw hv hgt hc]
    have hz : step IncompleteSequence.init f = (⟨1, f, 0, 0⟩, []) := by
      simp [step, stepZero, IncompleteSequence.init, hlt, hw]
    have h2 : step ⟨1, f, 0, 0⟩ s = (⟨2, f, s, 0⟩, []) := by
      simp [step, hv, hgt]
    have h3 : step ⟨2, f, s, 0⟩ t =
        ((stepZero t).1, replacement ++ (stepZero t).2) := by
      simp [step, hc]
    simp [stepFold, hz, h2, h3, step_init]
  | case11 f hlt hw s rest hv hle ih =>
    rw [scan_two_done f s rest hlt hw hv hle]
    have hz : step IncompleteSequence.init f = (⟨1, f, 0, 0⟩, []) := by
      simp [step, stepZero, IncompleteSequence.init, hlt, hw]
    have h2 : step ⟨1, f, 0, 0⟩ s = (IncompleteSequence.init, [f, s]) := by
      simp [step, hv, hle]
    cases hs : scan rest with
    | ok =>
      rw [hs] at ih
      simp [ScanRes.shift, stepFold, hz, h2, ih]
    | incomplete s2 v =>
      rw [hs] at ih
      simp [ScanRes.shift, stepFold, hz, h2, ih]
    | error v a =>
      rw [hs] at ih
      simp [ScanRes.shift, stepFold, hz, h2, ih]
  | case12 f hlt hw s rest hv =>
    rw [scan_bad2 f s rest hlt hw hv]
    have hz : step IncompleteSequence.init f = (⟨1, f, 0, 0⟩, []) := by
      simp [step, stepZero, IncompleteSequence.init, hlt, hw]
    have h2 : step ⟨1, f, 0, 0⟩ s =
        ((stepZero s).1, replacement ++ (stepZero s).2) := by
      simp [step, hv]
    simp [stepFold, hz, h2, step_init]

theorem width_le_4 (b : Nat) : width b ≤ 4 := by
  unfold width UTF8_CHAR_WIDTH
  repeat' split
  all_goals omega

theorem complete_steps (d : IncompleteSequence) (input : List Nat)
    (hwf : d.WF) (hlen : 0 < d.len) :
    stepFold d.obs input =
      match IncompleteSequence.complete d input with
      | (d2, CompleteRes.incomplete) => (d2.obs, [])
      | (_, CompleteRes.error rem) =>
        ((stepFold IncompleteSequence.init rem).1,
          replacement ++ (stepFold IncompleteSequence.init rem).2)
      | (_, CompleteRes.ok ch rest) =>
        ((stepFold IncompleteSequence.init rest).1,
          ch ++ (stepFold IncompleteSequence.init rest).2) := by
  obtain ⟨len, f, s2, t⟩ := d
  dsimp only at hlen
  rcases hwf with h0 | ⟨_, hltw⟩
  · dsimp only at h0
    omega
  dsimp only at hltw
  have hw4 : width f ≤ 4 := width_le_4 f
  have hup : len ≤ 3 := by omega
  interval_cases len
  · -- len = 1, width f ≥ 2
    have hobs : IncompleteSequence.obs ⟨1, f, s2, t⟩ = ⟨1, f, 0, 0⟩ := by
      simp [IncompleteSequence.obs]
    rw [hobs]
    cases input with
    | nil =>
      simp [IncompleteSequence.complete, stepFold, IncompleteSequence.obs]
    | cons b2 rest =>
      by_cases hv : second_byte_valid f b2 = true
      · by_cases hgt : width f > 2
        · -- width 3 or 4: go on to the third byte
          cases rest with
          | nil =>
            simp [IncompleteSequence.complete, IncompleteSequence.completeThird,
              hv, hgt, stepFold, step, IncompleteSequence.obs]
          | cons b3 rest2 =>
            by_cases hc3 : is_continuation_byte b3 = true
            · by_cases hgt3 : width f > 3
              · -- width 4: go on to the fourth byte
                cases rest2 with
                | nil =>
                  simp [IncompleteSequence.complete,
                    IncompleteSequence.completeThird,
                    IncompleteSequence.completeFourth,
                    hv, hgt, hc3, hgt3, stepFold, step, IncompleteSequence.obs]
                | cons b4 rest3 =>
                  by_cases hc4 : is_continuation_byte b4 = true
                  · have hw : width f = 4 := by omega
                    simp [IncompleteSequence.complete,
                      IncompleteSequence.completeThird,
                      IncompleteSequence.completeFourth,
                      hv, hgt, hc3, hgt3, hc4, hw, stepFold, step]
                  · simp [IncompleteSequence.complete,
                      IncompleteSequence.completeThird,
                      IncompleteSequence.completeFourth,
                      hv, hgt, hc3, hgt3, hc4, stepFold, step, step_init, IncompleteSequence.init]
              · -- width 3: the third byte finishes the code point
                have hw : width f = 3 := by omega
                simp [IncompleteSequence.complete,
                  IncompleteSequence.completeThird,
                  IncompleteSequence.completeFourth,
                  hv, hgt, hc3, hgt3, hw, stepFold, step]
            · simp [IncompleteSequence.complete,
                IncompleteSequence.completeThird,
                hv, hgt, hc3, stepFold, step, step_init, IncompleteSequence.init]
        · -- width 2: the second byte finishes the code point
          have hw : width f = 2 := by omega
          simp [IncompleteSequence.complete, IncompleteSequence.completeThird,
            hv, hgt, hw, stepFold, step]
      · simp [IncompleteSequence.complete, hv, stepFold, step, step_init, IncompleteSequence.init]
  · -- len = 2, width f ≥ 3
    have hobs : IncompleteSequence.obs ⟨2, f, s2, t⟩ = ⟨2, f, s2, 0⟩ := by
      simp [IncompleteSequence.obs]
    rw [hobs]
    have hgt : width f > 2 := by omega
    cases input with
    | nil =>
      simp [IncompleteSequence.complete, IncompleteSequence.completeThird,
        hgt, stepFold, IncompleteSequence.obs]
    | cons b3 rest =>
      by_cases hc3 : is_continuation_byte b3 = true
      · by_cases hgt3 : width f > 3
        · cases rest with
          | nil =>
            simp [IncompleteSequence.complete,
              IncompleteSequence.completeThird,
              IncompleteSequence.completeFourth,
              hgt, hc3, hgt3, stepFold, step, IncompleteSequence.obs]
          | cons b4 rest2 =>
            by_cases hc4 : is_continuation_byte b4 = true
            · have hw : width f = 4 := by omega
              simp [IncompleteSequence.complete,
                IncompleteSequence.completeThird,
                IncompleteSequence.completeFourth,
                hgt, hc3, hgt3, hc4, hw, stepFold, step]
            · simp [IncompleteSequence.complete,
                IncompleteSequence.completeThird,
                IncompleteSequence.completeFourth,
                hgt, hc3, hgt3, hc4, stepFold, step, step_init, IncompleteSequence.init]
        · have hw : width f = 3 := by omega
          simp [IncompleteSequence.complete,
            IncompleteSequence.completeThird,
            IncompleteSequence.completeFourth,
            hgt, hc3, hgt3, hw, stepFold, step]
      · simp [IncompleteSequence.complete, IncompleteSequence.completeThird,
          hgt, hc3, stepFold, step, step_init, IncompleteSequence.init]
  · -- len = 3, width f = 4
    have hobs : IncompleteSequence.obs ⟨3, f, s2, t⟩ = ⟨3, f, s2, t⟩ := by
      simp [IncompleteSequence.obs]
    rw [hobs]
    have hgt : width f > 2 := by omega
    have hgt3 : width f > 3 := by omega
    have hw : width f = 4 := by omega
    cases input with
    | nil =>
      simp [IncompleteSequence.complete, IncompleteSequence.completeThird,
        IncompleteSequence.completeFourth, hgt, hgt3, stepFold,
        IncompleteSequence.obs]
    | cons b4 rest =>
      by_cases hc4 : is_continuation_byte b4 = true
      · simp [IncompleteSequence.complete, IncompleteSequence.completeThird,
          IncompleteSequence.completeFourth, hgt, hgt3, hc4, hw,
          stepFold, step]
      · simp [IncompleteSequence.complete, IncompleteSequence.completeThird,
          IncompleteSequence.completeFourth, hgt, hgt3, hc4,
          stepFold, step, step_init, IncompleteSequence.init]

theorem width_eq_one (b : Nat) : width b = 1 ↔ b < 128 := by
  unfold width UTF8_CHAR_WIDTH
  repeat' split
  all_goals omega

theorem shift_incomplete_inv (r : ScanRes) (k : Nat) (s : IncompleteSequence)
    (v : Nat) (h : r.shift k = ScanRes.incomplete s v) :
    ∃ v2, r = ScanRes.incomplete s v2 ∧ v = v2 + k := by
  cases r with
  | ok => simp [ScanRes.shift] at h
  | error v2 a2 => simp [ScanRes.shift] at h
  | incomplete s2 v2 =>
    simp only [ScanRes.shift, ScanRes.incomplete.injEq] at h
    obtain ⟨rfl, h2⟩ := h
    exact ⟨v2, rfl, h2.symm⟩

/-- The pending sequences stored by the scanner are canonical (their unused
fields are zero), well formed, and start after the well-formed text. -/
theorem scan_incomplete_canon (input : List Nat) (s : IncompleteSequence) :
    ∀ v, scan input = ScanRes.incomplete s v →
      s.obs = s ∧ s.WF ∧ 0 < s.len ∧ v ≤ input.length := by
  induction input using scan.induct with
  | case1 =>
    intro v h
    rw [scan_nil] at h
    simp at h
  | case2 b rest hlt ih =>
    intro v h
    rw [scan_ascii b rest hlt] at h
    obtain ⟨v2, hs, rfl⟩ := shift_incomplete_inv _ _ _ _ h
    obtain ⟨h1, h2, h3, h4⟩ := ih v2 hs
    exact ⟨h1, h2, h3, by simp only [List.length_cons]; omega⟩
  | case3 b rest hlt hw =>
    intro v h
    rw [scan_w0 b rest hlt hw] at h
    simp at h
  | case4 b hlt hw =>
    intro v h
    rw [scan_one b hlt hw] at h
    simp only [ScanRes.incomplete.injEq] at h
    obtain ⟨rfl, rfl⟩ := h
    have hne1 : width b ≠ 1 := by
      rw [Ne, width_eq_one]
      exact hlt
    refine ⟨rfl, Or.inr ⟨by simp, ?_⟩, by simp, by simp⟩
    show 1 < width b
    omega
  | case5 f hlt hw s2 hv hgt =>
    intro v h
    rw [scan_two_end f s2 hlt hw hv hgt] at h
    simp only [ScanRes.incomplete.injEq] at h
    obtain ⟨rfl, rfl⟩ := h
    refine ⟨rfl, Or.inr ⟨by simp, ?_⟩, by simp, by simp⟩
    show 2 < width f
    omega
  | case6 f hlt hw s2 hv hgt t hc hgt3 =>
    intro v h
    rw [scan_three_end f s2 t hlt hw hv hgt hc hgt3] at h
    simp only [ScanRes.incomplete.injEq] at h
    obtain ⟨rfl, rfl⟩ := h
    refine ⟨?_, Or.inr ⟨by simp, ?_⟩, by simp, by simp⟩
    · simp [IncompleteSequence.obs]
    · show 3 < width f
      omega
  | case7 f hlt hw s2 hv hgt t hc hgt3 u rest hc4 ih =>
    intro v h
    rw [scan_four_done f s2 t u rest hlt hw hv hgt hc hgt3 hc4] at h
    obtain ⟨v2, hs, rfl⟩ := shift_incomplete_inv _ _ _ _ h
    obtain ⟨h1, h2, h3, h4⟩ := ih v2 hs
    exact ⟨h1, h2, h3, by simp only [List.length_cons]; omega⟩
  | case8 f hlt hw s2 hv hgt t hc hgt3 u rest hc4 =>
    intro v h
    rw [scan_bad4 f s2 t u rest hlt hw hv hgt hc hgt3 hc4] at h
    simp at h
  | case9 f hlt hw s2 hv hgt t rest hc hle ih =>
    intro v h
    rw [scan_three_done f s2 t rest hlt hw hv hgt hc hle] at h
    obtain ⟨v2, hs, rfl⟩ := shift_incomplete_inv _ _ _ _ h
    obtain ⟨h1, h2, h3, h4⟩ := ih v2 hs
    exact ⟨h1, h2, h3, by simp only [List.length_cons]; omega⟩
  | case10 f hlt hw s2 hv hgt t rest hc =>
    intro v h
    rw [scan_bad3 f s2 t rest hlt hw hv hgt hc] at h
    simp at h
  | case11 f hlt hw s2 rest hv hle ih =>
    intro v h
    rw [scan_two_done f s2 rest hlt hw hv hle] at h
    obtain ⟨v2, hs, rfl⟩ := shift_incomplete_inv _ _ _ _ h
    obtain ⟨h1, h2, h3, h4⟩ := ih v2 hs
    exact ⟨h1, h2, h3, by simp only [List.length_cons]; omega⟩
  | case12 f hlt hw s2 rest hv =>
    intro v h
    rw [scan_bad2 f s2 rest hlt hw hv] at h
    simp at h

/-- `LossyDecoder.feed` computes a fold of `step` over the chunk bytes:
equal emitted text, and equal states up to the observable part. -/
theorem feed_stepFold_aux (n : Nat) :
    ∀ d input, IncompleteSequence.WF d →
      2 * input.length + (if d.len = 0 then 0 else 1) ≤ n →
      (LossyDecoder.feed d input).2 = (stepFold d.obs input).2 ∧
      (LossyDecoder.feed d input).1.obs = (stepFold d.obs input).1 := by
  induction n using Nat.strong_induction_on with
  | _ n ih =>
  intro d input hwf hm
  by_cases h0 : d.len = 0
  · -- no pending sequence: `complete` is the identity and the scanner runs
    have hobs := obs_len_zero d h0
    have hcomp := complete_len_zero d input h0
    have hss := scanStep input
    rcases hscan : scan input with _ | ⟨s, v⟩ | ⟨v, a⟩
    · have hdec : Decoder.decode d input = (d, [], input, DecodeRes.ok) := by
        unfold Decoder.decode
        rw [hcomp]
        simp only [hscan]
      rw [LossyDecoder.feed, hdec]
      rw [hscan] at hss
      simp [hss, hobs]
    · have hdec : Decoder.decode d input =
          (s, [], input.take v, DecodeRes.incomplete) := by
        unfold Decoder.decode
        rw [hcomp]
        simp only [hscan]
      rw [LossyDecoder.feed, hdec]
      rw [hscan] at hss
      obtain ⟨hcan, -, -, -⟩ := scan_incomplete_canon input s v hscan
      simp [hss, hobs, hcan]
    · have hdec : Decoder.decode d input =
          (d, [], input.take v, DecodeRes.error (input.drop a)) := by
        unfold Decoder.decode
        rw [hcomp]
        simp only [hscan]
      rw [LossyDecoder.feed, hdec]
      rw [hscan] at hss
      obtain ⟨hva, hal⟩ := scan_error_facts input v a hscan
      have hne := scan_error_ne_nil input v a hscan
      have hpos : 0 < input.length := List.length_pos.mpr hne
      have hrec := ih (2 * (input.drop a).length)
        (by simp only [List.length_drop]; omega) d (input.drop a) hwf
        (by simp [h0])
      rw [hobs] at hrec
      rw [hobs, hss]
      simp [hrec.1, hrec.2]
  · -- a pending sequence: `complete` runs first
    have hlen0 : 0 < d.len := Nat.pos_of_ne_zero h0
    have hcs := complete_steps d input hwf hlen0
    rcases hcomp : IncompleteSequence.complete d input with ⟨d2, cres⟩
    rw [hcomp] at hcs
    cases cres with
    | incomplete =>
      have hdec : Decoder.decode d input = (d2, [], [], DecodeRes.incomplete) := by
        unfold Decoder.decode
        rw [hcomp]
      rw [LossyDecoder.feed, hdec]
      simp [hcs]
    | error rem =>
      have hdec : Decoder.decode d input = (d2, [], [], DecodeRes.error rem) := by
        unfold Decoder.decode
        rw [hcomp]
      rw [LossyDecoder.feed, hdec]
      obtain ⟨-, hd2, hreml⟩ := complete_error_facts d input d2 rem hcomp
      have hobs2 := obs_len_zero d2 hd2
      have hrec := ih (2 * rem.length)
        (by simp [h0] at hm; omega) d2 rem (Or.inl hd2)
        (by simp [hd2])
      rw [hobs2] at hrec
      rw [hcs]
      simp [hrec.1, hrec.2]
    | ok ch rest =>
      rcases complete_ok_facts d input d2 ch rest hcomp with
        ⟨hc0, -, -, -⟩ | ⟨-, hd2, p, hrest⟩
      · exact absurd hc0 h0
      have hobs2 := obs_len_zero d2 hd2
      have hrestlen : rest.length ≤ input.length := by
        rw [hrest]
        simp
      have hss := scanStep rest
      rcases hscan : scan rest with _ | ⟨s, v⟩ | ⟨v, a⟩
      · have hdec : Decoder.decode d input = (d2, ch, rest, DecodeRes.ok) := by
          unfold Decoder.decode
          rw [hcomp]
          simp only [hscan]
        rw [LossyDecoder.feed, hdec]
        rw [hscan] at hss
        simp [hcs, hss, hobs2]
      · have hdec : Decoder.decode d input =
            (s, ch, rest.take v, DecodeRes.incomplete) := by
          unfold Decoder.decode
          rw [hcomp]
          simp only [hscan]
        rw [LossyDecoder.feed, hdec]
        rw [hscan] at hss
        obtain ⟨hcan, -, -, -⟩ := scan_incomplete_canon rest s v hscan
        simp [hcs, hss, hcan]
      · have hdec : Decoder.decode d input =
            (d2, ch, rest.take v, DecodeRes.error (rest.drop a)) := by
          unfold Decoder.decode
          rw [hcomp]
          simp only [hscan]
        rw [LossyDecoder.feed, hdec]
        rw [hscan] at hss
        obtain ⟨hva, hal⟩ := scan_error_facts rest v a hscan
        have hne := scan_error_ne_nil rest v a hscan
        have hpos : 0 < rest.length := List.length_pos.mpr hne
        have hrec := ih (2 * (rest.drop a).length)
          (by simp only [List.length_drop]; simp [h0] at hm; omega)
          d2 (rest.drop a) (Or.inl hd2) (by simp [hd2])
        rw [hobs2] at hrec
        simp [hcs, hss, hrec.1, hrec.2]

theorem feed_eq_stepFold (d : IncompleteSequence) (input : List Nat)
    (hwf : d.WF) :
    (LossyDecoder.feed d input).2 = (stepFold d.obs input).2 ∧
    (LossyDecoder.feed d input).1.obs = (stepFold d.obs input).1 :=
  feed_stepFold_aux (2 * input.length + (if d.len = 0 then 0 else 1))
    d input hwf (le_refl _)

theorem stepZero_WF (b : Nat) : (stepZero b).1.WF := by
  unfold stepZero
  split
  · exact Or.inl rfl
  · split
    · exact Or.inl rfl
    · rename_i hlt hw
      refine Or.inr ⟨by simp, ?_⟩
      show 1 < width b
      have hne1 : width b ≠ 1 := by
        rw [Ne, width_eq_one]
        exact hlt
      omega

theorem step_WF (e : IncompleteSequence) (b : Nat) : (step e b).1.WF := by
  unfold step
  split
  · exact stepZero_WF b
  · split
    · split
      · split
        · rename_i hgt
          refine Or.inr ⟨by simp, ?_⟩
          show 2 < width e.first
          exact hgt
        · exact Or.inl rfl
      · exact stepZero_WF b
    · split
      · split
        · split
          · rename_i hgt3
            refine Or.inr ⟨by simp, ?_⟩
            show 3 < width e.first
            exact hgt3
          · exact Or.inl rfl
        · exact stepZero_WF b
      · split
        · exact Or.inl rfl
        · exact stepZero_WF b

theorem stepFold_WF (l : List Nat) : ∀ e : IncompleteSequence,
    e.WF → (stepFold e l).1.WF := by
  induction l with
  | nil => intro e he; exact he
  | cons b l ih =>
    intro e he
    simp only [stepFold]
    exact ih (step e b).1 (step_WF e b)

theorem WF_obs_iff (s : IncompleteSequence) : s.obs.WF ↔ s.WF := by
  unfold IncompleteSequence.WF IncompleteSequence.obs
  split
  · rename_i h
    simp [h]
  · split
    · rename_i h0 h1
      simp [h0, h1]
    · split
      · rename_i h0 h1 h2
        simp [h0, h1, h2]
      · simp

theorem WF_feed (d : IncompleteSequence) (input : List Nat) (hwf : d.WF) :
    (LossyDecoder.feed d input).1.WF := by
  have h := (feed_eq_stepFold d input hwf).2
  rw [← WF_obs_iff, h]
  exact stepFold_WF input d.obs ((WF_obs_iff d).mpr hwf)

/-- Feeding a sequence of chunks is the fold of `step` over their
concatenation: the decoder state never carries more than the pending
sequence, and the emitted text only depends on the byte stream. -/
theorem feedAll_eq (chunks : List (List Nat)) :
    ∀ d : IncompleteSequence, d.WF →
      (feedAll d chunks).2 = (stepFold d.obs chunks.join).2 ∧
      (feedAll d chunks).1.obs = (stepFold d.obs chunks.join).1 := by
  induction chunks with
  | nil =>
    intro d hwf
    simp [feedAll, stepFold]
  | cons c cs ih =>
    intro d hwf
    obtain ⟨hb1, hb2⟩ := feed_eq_stepFold d c hwf
    obtain ⟨hi1, hi2⟩ := ih (LossyDecoder.feed d c).1 (WF_feed d c hwf)
    rw [hb2] at hi1 hi2
    simp only [List.join] at hi1 hi2
    simp only [feedAll, List.join, List.flatten_cons, stepFold_append]
    exact ⟨by rw [hb1, hi1], by rw [hi2]⟩

/-- The full lossy pipeline only depends on the concatenation of the
chunks: it equals the fold of `step` over the whole byte stream followed by
the end-of-stream replacement character when a sequence is still pending. -/
theorem lossyRun_eq (chunks : List (List Nat)) :
    lossyRun chunks =
      (stepFold IncompleteSequence.init chunks.join).2 ++
        (if 0 < (stepFold IncompleteSequence.init chunks.join).1.len then
          replacement else []) := by
  obtain ⟨h1, h2⟩ := feedAll_eq chunks IncompleteSequence.init init_WF
  rw [init_obs] at h1 h2
  simp only [lossyRun, LossyDecoder.dropOutput, Decoder.has_incomplete_sequence]
  rw [h1, ← h2, obs_len]
  by_cases hp : 0 < (feedAll IncompleteSequence.init chunks).1.len <;> simp [hp]

theorem completeFourth_incomplete_pos (s : IncompleteSequence) (w pos : Nat)
    (input : List Nat) (d2 : IncompleteSequence) (hs : 0 < s.len)
    (h : IncompleteSequence.completeFourth s w pos input =
      (d2, CompleteRes.incomplete)) : 0 < d2.len := by
  unfold IncompleteSequence.completeFourth at h
  split at h
  · split at h
    · obtain ⟨h1, -⟩ := Prod.mk.injEq .. ▸ h
      rw [← h1]
      simp only
      omega
    · split at h <;> simp at h
  · simp at h

theorem completeThird_incomplete_pos (s : IncompleteSequence) (w pos : Nat)
    (input : List Nat) (d2 : IncompleteSequence) (hs : 0 < s.len)
    (h : IncompleteSequence.completeThird s w pos input =
      (d2, CompleteRes.incomplete)) : 0 < d2.len := by
  unfold IncompleteSequence.completeThird at h
  split at h
  · split at h
    · split at h
      · obtain ⟨h1, -⟩ := Prod.mk.injEq .. ▸ h
        rw [← h1]
        simp only
        omega
      · split at h
        · exact completeFourth_incomplete_pos _ _ _ _ _ (by simp only; omega) h
        · simp at h
    · exact completeFourth_incomplete_pos _ _ _ _ _ hs h
  · simp at h

theorem complete_incomplete_pos (d : IncompleteSequence) (input : List Nat)
    (d2 : IncompleteSequence)
    (h : IncompleteSequence.complete d input = (d2, CompleteRes.incomplete)) :
    0 < d2.len := by
  unfold IncompleteSequence.complete at h
  split at h
  · simp at h
  · rename_i h0
    split at h
    · split at h
      · obtain ⟨h1, -⟩ := Prod.mk.injEq .. ▸ h
        rw [← h1]
        omega
      · split at h
        · exact completeThird_incomplete_pos _ _ _ _ _ (by simp only; omega) h
        · simp at h
    · exact completeThird_incomplete_pos _ _ _ _ _ (by omega) h

/-- After a call to `Decoder::decode`, `has_incomplete_sequence` holds
exactly when that call returned `Result::Incomplete`. -/
theorem decode_pending_iff (d : IncompleteSequence) (input : List Nat) :
    Decoder.has_incomplete_sequence (Decoder.decode d input).1 = true ↔
      (Decoder.decode d input).2.2.2 = DecodeRes.incomplete := by
  unfold Decoder.has_incomplete_sequence
  rcases hcomp : IncompleteSequence.complete d input with ⟨d2, cres⟩
  cases cres with
  | incomplete =>
    have hdec : Decoder.decode d input = (d2, [], [], DecodeRes.incomplete) := by
      unfold Decoder.decode
      rw [hcomp]
    rw [hdec]
    have := complete_incomplete_pos d input d2 hcomp
    simpa using this
  | error rem =>
    have hdec : Decoder.decode d input = (d2, [], [], DecodeRes.error rem) := by
      unfold Decoder.decode
      rw [hcomp]
    rw [hdec]
    obtain ⟨-, h2, -⟩ := complete_error_facts d input d2 rem hcomp
    simp [h2]
  | ok ch rest =>
    have hd2 : d2.len = 0 := by
      rcases complete_ok_facts d input d2 ch rest hcomp with
        ⟨h0, rfl, -, -⟩ | ⟨-, h2, -⟩
      · exact h0
      · exact h2
    rcases hscan : scan rest with _ | ⟨s, v⟩ | ⟨v, a⟩
    · have hdec : Decoder.decode d input = (d2, ch, rest, DecodeRes.ok) := by
        unfold Decoder.decode
        rw [hcomp]
        simp only [hscan]
      rw [hdec]
      simp [hd2]
    · have hdec : Decoder.decode d input =
          (s, ch, rest.take v, DecodeRes.incomplete) := by
        unfold Decoder.decode
        rw [hcomp]
        simp only [hscan]
      rw [hdec]
      obtain ⟨-, -, hpos, -⟩ := scan_incomplete_canon rest s v hscan
      simpa using hpos
    · have hdec : Decoder.decode d input =
          (d2, ch, rest.take v, DecodeRes.error (rest.drop a)) := by
        unfold Decoder.decode
        rw [hcomp]
        simp only [hscan]
      rw [hdec]
      simp [hd2]

/-! ### Claim theorems -/

/-- C1 (chunk-boundary independence): for every input byte sequence `I` and
every partition of `I` into non-empty chunks, feeding the chunks in order
through the lossy layer (`LossyDecoder.feed` on each chunk, then dropping
the decoder as end-of-stream finalization) produces, as the concatenation
of all callback strings, the same text as feeding `I` as a single chunk. -/
theorem chunk_boundary_independence (I : List Nat) (chunks : List (List Nat))
    (hjoin : chunks.join = I) (hne : ∀ c ∈ chunks, c ≠ []) :
    lossyRun chunks = lossyRun [I] := by
  have hI : ([I] : List (List Nat)).join = I := by simp
  rw [lossyRun_eq chunks, lossyRun_eq [I], hI, hjoin]

theorem chunk_boundary_independence_witness :
    (([[0xF0, 0x90], [0x80], [0x80, 0x61]] : List (List Nat)).join =
        [0xF0, 0x90, 0x80, 0x80, 0x61]) ∧
    (∀ c ∈ ([[0xF0, 0x90], [0x80], [0x80, 0x61]] : List (List Nat)), c ≠ []) ∧
    lossyRun [[0xF0, 0x90], [0x80], [0x80, 0x61]] =
      lossyRun [[0xF0, 0x90, 0x80, 0x80, 0x61]] :=
  ⟨by decide, by decide,
    chunk_boundary_independence [0xF0, 0x90, 0x80, 0x80, 0x61]
      [[0xF0, 0x90], [0x80], [0x80, 0x61]] (by decide) (by decide)⟩

/-- C2 (minimal-error-length / maximal subpart): on `[0xE6, 0x83, 0x20]`,
`Decoder::decode` reports one invalid sequence spanning exactly `E6 83`
(`remaining_input_after_error` starts at `0x20`), decoding the remaining
input handles the ASCII byte normally, and in general when the third byte of
an attempted 3- or 4-byte sequence breaks the pattern after a valid
lead+second, the error resumes exactly at that byte. -/
theorem minimal_error_length :
    (Decoder.decode IncompleteSequence.init [0xE6, 0x83, 0x20] =
      (IncompleteSequence.init, [], [], DecodeRes.error [0x20])) ∧
    (Decoder.decode IncompleteSequence.init [0x20] =
      (IncompleteSequence.init, [], [0x20], DecodeRes.ok)) ∧
    (∀ f s t : Nat, ∀ l : List Nat, ¬ f < 128 → width f ≠ 0 →
      second_byte_valid f s = true → width f > 2 →
      ¬ is_continuation_byte t = true →
      Decoder.decode IncompleteSequence.init (f :: s :: t :: l) =
        (IncompleteSequence.init, [], [], DecodeRes.error (t :: l))) := by
  refine ⟨by decide, by decide, ?_⟩
  intro f s t l h1 h2 h3 h4 h5
  have hs := scan_bad3 f s t l h1 h2 h3 h4 h5
  unfold Decoder.decode
  rw [complete_len_zero _ _ rfl]
  simp only [hs]
  simp

theorem minimal_error_length_witness :
    (¬ (0xE6 : Nat) < 128) ∧ width 0xE6 ≠ 0 ∧
    second_byte_valid 0xE6 0x83 = true ∧ width 0xE6 > 2 ∧
    (¬ is_continuation_byte 0x20 = true) ∧
    Decoder.decode IncompleteSequence.init [0xE6, 0x83, 0x20] =
      (IncompleteSequence.init, [], [], DecodeRes.error [0x20]) :=
  ⟨by decide, by decide, by decide, by decide, by decide,
    minimal_error_length.2.2 0xE6 0x83 0x20 [] (by decide) (by decide)
      (by decide) (by decide) (by decide)⟩

/-- C3 (cross-chunk reconstruction): a chunk ending in `F0 90 80` leaves the
decoder `Incomplete` with those three bytes stored; a following chunk
`80 66 6F 6F` (`\x80foo`) yields the reconstructed code point U+10000 as the
inline string `F0 90 80 80`, the well-formed slice `foo`, no errors, and the
lossy pipeline emits exactly `\u{10000}foo`. -/
theorem cross_chunk_reconstruction :
    (Decoder.decode IncompleteSequence.init [0xF0, 0x90, 0x80] =
      (⟨3, 0xF0, 0x90, 0x80⟩, [], [], DecodeRes.incomplete)) ∧
    (Decoder.decode ⟨3, 0xF0, 0x90, 0x80⟩ [0x80, 0x66, 0x6F, 0x6F] =
      (⟨0, 0xF0, 0x90, 0x80⟩, [0xF0, 0x90, 0x80, 0x80], [0x66, 0x6F, 0x6F],
        DecodeRes.ok)) ∧
    lossyRun [[0xF0, 0x90, 0x80], [0x80, 0x66, 0x6F, 0x6F]] =
      [0xF0, 0x90, 0x80, 0x80, 0x66, 0x6F, 0x6F] := by
  refine ⟨by decide, by decide, ?_⟩
  rw [lossyRun_eq]
  decide

/-- C4 (overlong rejection): `C0 80`, `E0 80 80` and `F0 80 80 80` are all
rejected (every byte replaced, never decoded as NUL or any code point);
concretely `width 0xC0 = width 0xC1 = 0`, `0x80` fails the second-byte check
after lead `0xE0`, and `0x80` fails it after lead `0xF0`. -/
theorem overlong_rejection :
    UTF8_CHAR_WIDTH 0xC0 = 0 ∧ UTF8_CHAR_WIDTH 0xC1 = 0 ∧
    valid_three_bytes_sequence_start 0xE0 0x80 = false ∧
    valid_four_bytes_sequence_start 0xF0 0x80 = false ∧
    lossyRun [[0xC0, 0x80]] = replacement ++ replacement ∧
    lossyRun [[0xE0, 0x80, 0x80]] =
      replacement ++ replacement ++ replacement ∧
    lossyRun [[0xF0, 0x80, 0x80, 0x80]] =
      replacement ++ replacement ++ replacement ++ replacement := by
  refine ⟨by decide, by decide, by decide, by decide, ?_, ?_, ?_⟩ <;>
    (rw [lossyRun_eq]; decide)

/-- C5 (surrogate rejection): every 3-byte input `ED s t` with
`A0 ≤ s ≤ BF` (a UTF-8-encoded surrogate) is rejected at the second byte
with the error resuming there, and the fixture
`ED A0 80 "foo" ED BF BF "bar"` decodes lossily to
`U+FFFD U+FFFD U+FFFD foo U+FFFD U+FFFD U+FFFD bar`. -/
theorem surrogate_rejection :
    (∀ s t : Nat, 0xA0 ≤ s → s ≤ 0xBF →
      Decoder.decode IncompleteSequence.init [0xED, s, t] =
        (IncompleteSequence.init, [], [], DecodeRes.error [s, t])) ∧
    lossyRun [[0xED, 0xA0, 0x80, 0x66, 0x6F, 0x6F,
               0xED, 0xBF, 0xBF, 0x62, 0x61, 0x72]] =
      replacement ++ replacement ++ replacement ++ [0x66, 0x6F, 0x6F] ++
        replacement ++ replacement ++ replacement ++ [0x62, 0x61, 0x72] := by
  constructor
  · intro s t hs1 hs2
    have hsbv : ¬ second_byte_valid 0xED s = true := by
      simp [second_byte_valid, width, UTF8_CHAR_WIDTH,
        valid_three_bytes_sequence_start]
      omega
    have hsc := scan_bad2 0xED s [t] (by decide) (by decide) hsbv
    unfold Decoder.decode
    rw [complete_len_zero _ _ rfl]
    simp only [hsc]
    simp
  · rw [lossyRun_eq]
    decide

theorem surrogate_rejection_witness :
    ((0xA0 : Nat) ≤ 0xA0) ∧ ((0xA0 : Nat) ≤ 0xBF) ∧
    Decoder.decode IncompleteSequence.init [0xED, 0xA0, 0x80] =
      (IncompleteSequence.init, [], [], DecodeRes.error [0xA0, 0x80]) :=
  ⟨by decide, by decide,
    surrogate_rejection.1 0xA0 0x80 (by decide) (by decide)⟩

/-- C6 (range cap): `F4 90 80 80` is rejected (second byte above `8F` after
lead `F4` fails the check, and leads `F5..FF` have width 0), while
`F0 90 80 80`, the encoding of U+10000, is accepted and decoded. -/
theorem range_cap :
    (∀ c : Nat, 0x8F < c → valid_four_bytes_sequence_start 0xF4 c = false) ∧
    (∀ b : Nat, 0xF5 ≤ b → b ≤ 0xFF → UTF8_CHAR_WIDTH b = 0) ∧
    (Decoder.decode IncompleteSequence.init [0xF4, 0x90, 0x80, 0x80] =
      (IncompleteSequence.init, [], [], DecodeRes.error [0x90, 0x80, 0x80])) ∧
    (Decoder.decode IncompleteSequence.init [0xF0, 0x90, 0x80, 0x80] =
      (IncompleteSequence.init, [], [0xF0, 0x90, 0x80, 0x80],
        DecodeRes.ok)) ∧
    lossyRun [[0xF4, 0x90, 0x80, 0x80]] =
      replacement ++ replacement ++ replacement ++ replacement ∧
    lossyRun [[0xF0, 0x90, 0x80, 0x80]] = [0xF0, 0x90, 0x80, 0x80] := by
  refine ⟨?_, ?_, by decide, by decide, ?_, ?_⟩
  · intro c hc
    simp [valid_four_bytes_sequence_start]
    omega
  · intro b hb1 hb2
    unfold UTF8_CHAR_WIDTH
    repeat' split
    all_goals omega
  · rw [lossyRun_eq]
    decide
  · rw [lossyRun_eq]
    decide

theorem range_cap_witness :
    ((0x8F : Nat) < 0x90) ∧ ((0xF5 : Nat) ≤ 0xF5) ∧ ((0xF5 : Nat) ≤ 0xFF) ∧
    valid_four_bytes_sequence_start 0xF4 0x90 = false ∧
    UTF8_CHAR_WIDTH 0xF5 = 0 :=
  ⟨by decide, by decide, by decide,
    range_cap.1 0x90 (by decide),
    range_cap.2.1 0xF5 (by decide) (by decide)⟩

/-- C7 (truncated stream): dropping the `LossyDecoder` emits exactly one
replacement character through the callback when an incomplete sequence is
still pending, and nothing otherwise; the full pipeline is feeding plus this
finalization, e.g. the truncated `F0 90` yields exactly one U+FFFD while a
complete ASCII chunk yields no extra output. -/
theorem truncated_stream :
    (∀ chunks : List (List Nat),
      lossyRun chunks = (feedAll IncompleteSequence.init chunks).2 ++
        LossyDecoder.dropOutput (feedAll IncompleteSequence.init chunks).1) ∧
    (∀ d : IncompleteSequence, Decoder.has_incomplete_sequence d = true →
      LossyDecoder.dropOutput d = replacement) ∧
    (∀ d : IncompleteSequence, Decoder.has_incomplete_sequence d = false →
      LossyDecoder.dropOutput d = []) ∧
    lossyRun [[0xF0, 0x90]] = replacement ∧
    lossyRun [[0x61]] = [0x61] := by
  refine ⟨fun chunks => rfl, ?_, ?_, ?_, ?_⟩
  · intro d h
    simp [LossyDecoder.dropOutput, h]
  · intro d h
    simp [LossyDecoder.dropOutput, h]
  · rw [lossyRun_eq]
    decide
  · rw [lossyRun_eq]
    decide

theorem truncated_stream_witness :
    Decoder.has_incomplete_sequence ⟨1, 0xC2, 0, 0⟩ = true ∧
    LossyDecoder.dropOutput ⟨1, 0xC2, 0, 0⟩ = replacement ∧
    Decoder.has_incomplete_sequence ⟨0, 0, 0, 0⟩ = false ∧
    LossyDecoder.dropOutput ⟨0, 0, 0, 0⟩ = [] :=
  ⟨by decide, truncated_stream.2.1 ⟨1, 0xC2, 0, 0⟩ (by decide),
    by decide, truncated_stream.2.2.1 ⟨0, 0, 0, 0⟩ (by decide)⟩

/-- C9 (pending-state invariant): after any call to `Decoder::decode`, from
any starting state, `has_incomplete_sequence` returns true exactly when that
call returned `Result::Incomplete`; in particular every `Ok` or `Error`
return leaves no pending sequence. -/
theorem pending_state_invariant (d : IncompleteSequence) (input : List Nat) :
    Decoder.has_incomplete_sequence (Decoder.decode d input).1 = true ↔
      (Decoder.decode d input).2.2.2 = DecodeRes.incomplete :=
  decode_pending_iff d input

/-! ### Panic-freedom model for C8

The Rust code indexes the input only through `Option`-returning `get` and
slice expressions `&input[i..]` / `&input[..i]`, which panic when `i` is out
of bounds.  `sliceFrom` / `sliceTo` model those slice expressions with
`none` standing for a panic, and `Decoder.decodeP` is `Decoder.decode` with
every slice so guarded.  `decode_no_panic` shows no input can reach a
panic. -/

/-- Rust `&l[i..]`: panics (`none`) when `i > l.len()`. -/
def sliceFrom (l : List Nat) (i : Nat) : Option (List Nat) :=
  if i ≤ l.length then some (l.drop i) else none

/-- Rust `&l[..i]`: panics (`none`) when `i > l.len()`. -/
def sliceTo (l : List Nat) (i : Nat) : Option (List Nat) :=
  if i ≤ l.length then some (l.take i) else none

/-- `IncompleteSequence.completeFourth` with panicking slices. -/
def IncompleteSequence.completeFourthP (s : IncompleteSequence) (w : Nat)
    (pos : Nat) (input : List Nat) :
    Option (IncompleteSequence × CompleteRes) :=
  if w > 3 then
    match input.get? pos with
    | none => some ({ s with len := s.len + pos }, CompleteRes.incomplete)
    | some b4 =>
      if is_continuation_byte b4 then
        match sliceFrom input (pos + 1) with
        | none => none
        | some rest =>
          some ({ s with len := 0 },
            CompleteRes.ok (List.take w [s.first, s.second, s.third, b4]) rest)
      else
        match sliceFrom input pos with
        | none => none
        | some rem => some ({ s with len := 0 }, CompleteRes.error rem)
  else
    match sliceFrom input pos with
    | none => none
    | some rest =>
      some ({ s with len := 0 },
        CompleteRes.ok (List.take w [s.first, s.second, s.third, 0]) rest)

/-- `IncompleteSequence.completeThird` with panicking slices. -/
def IncompleteSequence.completeThirdP (s : IncompleteSequence) (w : Nat)
    (pos : Nat) (input : List Nat) :
    Option (IncompleteSequence × CompleteRes) :=
  if w > 2 then
    if s.len < 3 then
      match input.get? pos with
      | none => some ({ s with len := s.len + pos }, CompleteRes.incomplete)
      | some b3 =>
        if is_continuation_byte b3 then
          IncompleteSequence.completeFourthP { s with third := b3 } w (pos + 1) input
        else
          match sliceFrom input pos with
          | none => none
          | some rem =>
            some ({ s with third := b3, len := 0 }, CompleteRes.error rem)
    else
      IncompleteSequence.completeFourthP s w pos input
  else
    match sliceFrom input pos with
    | none => none
    | some rest =>
      some ({ s with len := 0 },
        CompleteRes.ok (List.take w [s.first, s.second, s.third, 0]) rest)

/-- `IncompleteSequence.complete` with panicking slices. -/
def IncompleteSequence.completeP (s : IncompleteSequence) (input : List Nat) :
    Option (IncompleteSequence × CompleteRes) :=
  if s.len = 0 then
    some (s, CompleteRes.ok [] input)
  else
    if s.len < 2 then
      match input.get? 0 with
      | none => some (s, CompleteRes.incomplete)
      | some b2 =>
        if second_byte_valid s.first b2 then
          IncompleteSequence.completeThirdP { s with second := b2 }
            (width s.first) 1 input
        else
          match sliceFrom input 0 with
          | none => none
          | some rem =>
            some ({ s with second := b2, len := 0 }, CompleteRes.error rem)
    else
      IncompleteSequence.completeThirdP s (width s.first) 0 input

/-- `Decoder.decode` with panicking slices (`valid_prefix!` is `&input[..v]`
and `remaining_input_after_error` is `&input[a..]`). -/
def Decoder.decodeP (d : IncompleteSequence) (input : List Nat) :
    Option (IncompleteSequence × List Nat × List Nat × DecodeRes) :=
  match IncompleteSequence.completeP d input with
  | none => none
  | some (d', CompleteRes.incomplete) => some (d', [], [], DecodeRes.incomplete)
  | some (d', CompleteRes.error rem) => some (d', [], [], DecodeRes.error rem)
  | some (d', CompleteRes.ok ch rest) =>
    match scan rest with
    | ScanRes.ok => some (d', ch, rest, DecodeRes.ok)
    | ScanRes.incomplete s v =>
      match sliceTo rest v with
      | none => none
      | some pre => some (s, ch, pre, DecodeRes.incomplete)
    | ScanRes.error v a =>
      match sliceTo rest v, sliceFrom rest a with
      | some pre, some rem => some (d', ch, pre, DecodeRes.error rem)
      | _, _ => none

theorem get_some_lt (l : List Nat) (n b : Nat) (h : l.get? n = some b) :
    n < l.length := by
  by_contra hge
  rw [List.get?_eq_none.mpr (by omega)] at h
  simp at h

theorem completeFourthP_eq (s : IncompleteSequence) (w pos : Nat)
    (input : List Nat) (h : pos ≤ input.length) :
    IncompleteSequence.completeFourthP s w pos input =
      some (IncompleteSequence.completeFourth s w pos input) := by
  unfold IncompleteSequence.completeFourthP IncompleteSequence.completeFourth
  by_cases hw : w > 3
  · rcases hget : input.get? pos with _ | b4
    · simp [hw, hget]
    · have hlt : pos < input.length := get_some_lt _ _ _ hget
      by_cases hc : is_continuation_byte b4 = true
      · simp [hw, hget, hc, sliceFrom, show pos + 1 ≤ input.length by omega]
      · simp [hw, hget, hc, sliceFrom, show pos ≤ input.length from h]
  · simp [hw, sliceFrom, h]

theorem completeThirdP_eq (s : IncompleteSequence) (w pos : Nat)
    (input : List Nat) (h : pos ≤ input.length) :
    IncompleteSequence.completeThirdP s w pos input =
      some (IncompleteSequence.completeThird s w pos input) := by
  unfold IncompleteSequence.completeThirdP IncompleteSequence.completeThird
  by_cases hw : w > 2
  · by_cases hl : s.len < 3
    · rcases hget : input.get? pos with _ | b3
      · simp [hw, hl, hget]
      · have hlt : pos < input.length := get_some_lt _ _ _ hget
        by_cases hc : is_continuation_byte b3 = true
        · simp only [if_pos hw, if_pos hl, hget, if_pos hc]
          exact completeFourthP_eq _ _ _ _ (by omega)
        · simp [hw, hl, hget, hc, sliceFrom, show pos ≤ input.length from h]
    · simp only [if_pos hw, if_neg hl]
      exact completeFourthP_eq _ _ _ _ h
  · simp [hw, sliceFrom, h]

theorem completeP_eq (s : IncompleteSequence) (input : List Nat) :
    IncompleteSequence.completeP s input =
      some (IncompleteSequence.complete s input) := by
  unfold IncompleteSequence.completeP IncompleteSequence.complete
  by_cases h0 : s.len = 0
  · simp [h0]
  · by_cases hl : s.len < 2
    · rcases hget : input.get? 0 with _ | b2
      · simp [h0, hl, hget]
      · have hlt : 0 < input.length := get_some_lt _ _ _ hget
        by_cases hv : second_byte_valid s.first b2 = true
        · simp only [if_neg h0, if_pos hl, hget, if_pos hv]
          exact completeThirdP_eq _ _ _ _ (by omega)
        · simp [h0, hl, hget, hv, sliceFrom]
    · simp only [if_neg h0, if_neg hl]
      exact completeThirdP_eq _ _ _ _ (by omega)

/-- `Decoder.decode` never panics: the bounds-guarded model agrees with the
total one on every state and every input. -/
theorem decodeP_eq (d : IncompleteSequence) (input : List Nat) :
    Decoder.decodeP d input = some (Decoder.decode d input) := by
  unfold Decoder.decodeP Decoder.decode
  rw [completeP_eq]
  rcases hcomp : IncompleteSequence.complete d input with ⟨d2, cres⟩
  cases cres with
  | incomplete => rfl
  | error rem => rfl
  | ok ch rest =>
    simp only
    rcases hscan : scan rest with _ | ⟨s, v⟩ | ⟨v, a⟩
    · rfl
    · obtain ⟨-, -, -, hv⟩ := scan_incomplete_canon rest s v hscan
      simp [sliceTo, hv]
    · obtain ⟨hva, hal⟩ := scan_error_facts rest v a hscan
      simp [sliceTo, sliceFrom, show v ≤ rest.length by omega,
        show a ≤ rest.length from hal]

/-- C8 (totality / no panic): for every decoder state (any pending sequence)
and every input chunk, including arbitrary malformed bytes, empty chunks and
single bytes, `Decoder::decode` returns normally: with every slice
expression bounds-guarded (`none` = panic), `decodeP` never panics and
agrees with the total function. -/
theorem decode_no_panic (d : IncompleteSequence) (input : List Nat) :
    Decoder.decodeP d input = some (Decoder.decode d input) :=
  decodeP_eq d input

/-! ### Well-formedness of outputs (C10)

`ValidUtf8` is written from the RFC 3629 grammar quoted at src/lib.rs lines
162-170 (UTF8-1 .. UTF8-4), independently of the decoder's predicates. -/

/-- `UTF8-tail = %x80-BF`. -/
def IsCont (b : Nat) : Prop := 0x80 ≤ b ∧ b ≤ 0xBF

/-- The second byte of UTF8-3: `%xE0 %xA0-BF / %xE1-EC %x80-BF /
%xED %x80-9F / %xEE-EF %x80-BF`. -/
def ThreeSecondOk (b c : Nat) : Prop :=
  (b = 0xE0 ∧ 0xA0 ≤ c ∧ c ≤ 0xBF) ∨ (0xE1 ≤ b ∧ b ≤ 0xEC ∧ IsCont c) ∨
  (b = 0xED ∧ 0x80 ≤ c ∧ c ≤ 0x9F) ∨ (0xEE ≤ b ∧ b ≤ 0xEF ∧ IsCont c)

/-- The second byte of UTF8-4: `%xF0 %x90-BF / %xF1-F3 %x80-BF /
%xF4 %x80-8F`. -/
def FourSecondOk (b c : Nat) : Prop :=
  (b = 0xF0 ∧ 0x90 ≤ c ∧ c ≤ 0xBF) ∨ (0xF1 ≤ b ∧ b ≤ 0xF3 ∧ IsCont c) ∨
  (b = 0xF4 ∧ 0x80 ≤ c ∧ c ≤ 0x8F)

/-- Well-formed UTF-8 byte sequences per RFC 3629: a concatenation of
UTF8-1, UTF8-2, UTF8-3 and UTF8-4 encoded code points. -/
inductive ValidUtf8 : List Nat → Prop where
  | nil : ValidUtf8 []
  | one {b : Nat} {l : List Nat} : b ≤ 0x7F → ValidUtf8 l →
      ValidUtf8 (b :: l)
  | two {b c : Nat} {l : List Nat} : 0xC2 ≤ b → b ≤ 0xDF → IsCont c →
      ValidUtf8 l → ValidUtf8 (b :: c :: l)
  | three {b c d : Nat} {l : List Nat} : 0xE0 ≤ b → b ≤ 0xEF →
      ThreeSecondOk b c → IsCont d → ValidUtf8 l →
      ValidUtf8 (b :: c :: d :: l)
  | four {b c d e : Nat} {l : List Nat} : 0xF0 ≤ b → b ≤ 0xF4 →
      FourSecondOk b c → IsCont d → IsCont e → ValidUtf8 l →
      ValidUtf8 (b :: c :: d :: e :: l)

/-- The complete, valid encoding of exactly one code point of 2 to 4
bytes. -/
def OneCodePointEnc (l : List Nat) : Prop :=
  (∃ b c, l = [b, c] ∧ 0xC2 ≤ b ∧ b ≤ 0xDF ∧ IsCont c) ∨
  (∃ b c d, l = [b, c, d] ∧ 0xE0 ≤ b ∧ b ≤ 0xEF ∧ ThreeSecondOk b c ∧
    IsCont d) ∨
  (∃ b c d e, l = [b, c, d, e] ∧ 0xF0 ≤ b ∧ b ≤ 0xF4 ∧ FourSecondOk b c ∧
    IsCont d ∧ IsCont e)

/-- The spec invariant on pending decoder states (spec.md section 3): every
byte collected so far has passed its positional validity check. -/
def GoodPending (s : IncompleteSequence) : Prop :=
  s.len = 0 ∨
  (s.len = 1 ∧ 2 ≤ width s.first) ∨
  (s.len = 2 ∧ 3 ≤ width s.first ∧
    second_byte_valid s.first s.second = true) ∨
  (s.len = 3 ∧ width s.first = 4 ∧
    second_byte_valid s.first s.second = true ∧
    is_continuation_byte s.third = true ∧ s.third < 256)

instance (b : Nat) : Decidable (IsCont b) := by
  unfold IsCont
  infer_instance

instance (b c : Nat) : Decidable (ThreeSecondOk b c) := by
  unfold ThreeSecondOk
  infer_instance

instance (b c : Nat) : Decidable (FourSecondOk b c) := by
  unfold FourSecondOk
  infer_instance

instance (s : IncompleteSequence) : Decidable (GoodPending s) := by
  unfold GoodPending
  infer_instance

theorem width_two_iff (b : Nat) : width b = 2 ↔ 0xC2 ≤ b ∧ b ≤ 0xDF := by
  unfold width UTF8_CHAR_WIDTH
  repeat' split
  all_goals omega

theorem width_three_iff (b : Nat) : width b = 3 ↔ 0xE0 ≤ b ∧ b ≤ 0xEF := by
  unfold width UTF8_CHAR_WIDTH
  repeat' split
  all_goals omega

theorem width_four_iff (b : Nat) : width b = 4 ↔ 0xF0 ≤ b ∧ b ≤ 0xF4 := by
  unfold width UTF8_CHAR_WIDTH
  repeat' split
  all_goals omega

set_option maxRecDepth 2048 in
theorem cont_bridge : ∀ b : Nat, b < 256 →
    (is_continuation_byte b = true ↔ IsCont b) := by
  decide

theorem three_bridge (b c : Nat) :
    valid_three_bytes_sequence_start b c = true ↔ ThreeSecondOk b c := by
  simp only [valid_three_bytes_sequence_start, ThreeSecondOk, IsCont,
    Bool.or_eq_true, Bool.and_eq_true, decide_eq_true_eq, beq_iff_eq]
  omega

theorem four_bridge (b c : Nat) :
    valid_four_bytes_sequence_start b c = true ↔ FourSecondOk b c := by
  simp only [valid_four_bytes_sequence_start, FourSecondOk, IsCont,
    Bool.or_eq_true, Bool.and_eq_true, decide_eq_true_eq, beq_iff_eq]
  omega

theorem ValidUtf8.append {xs ys : List Nat} (hx : ValidUtf8 xs)
    (hy : ValidUtf8 ys) : ValidUtf8 (xs ++ ys) := by
  induction hx with
  | nil => exact hy
  | one h1 _ ih => exact ValidUtf8.one h1 ih
  | two h1 h2 h3 _ ih => exact ValidUtf8.two h1 h2 h3 ih
  | three h1 h2 h3 h4 _ ih => exact ValidUtf8.three h1 h2 h3 h4 ih
  | four h1 h2 h3 h4 h5 _ ih => exact ValidUtf8.four h1 h2 h3 h4 h5 ih

theorem shift_ok_inv (r : ScanRes) (k : Nat) (h : r.shift k = ScanRes.ok) :
    r = ScanRes.ok := by
  cases r <;> simp [ScanRes.shift] at h ⊢

/-- Everything the scanner covers before stopping is well-formed UTF-8: the
whole input on `ok`, and the prefix of length `validLen` on `incomplete` and
`error`. -/
theorem scan_valid (input : List Nat) :
    (∀ b ∈ input, b < 256) →
    ((scan input = ScanRes.ok → ValidUtf8 input) ∧
     (∀ s v, scan input = ScanRes.incomplete s v →
       ValidUtf8 (input.take v)) ∧
     (∀ v a, scan input = ScanRes.error v a → ValidUtf8 (input.take v))) := by
  induction input using scan.induct with
  | case1 =>
    intro h256
    refine ⟨fun _ => ValidUtf8.nil, fun s v h => ?_, fun v a h => ?_⟩ <;>
      (rw [scan_nil] at h; simp at h)
  | case2 b rest hlt ih =>
    intro h256
    have hb : b < 256 := h256 b (by simp)
    have hr : ∀ x ∈ rest, x < 256 := fun x hx => h256 x (by simp [hx])
    obtain ⟨ihok, ihinc, iherr⟩ := ih hr
    refine ⟨fun h => ?_, fun s v h => ?_, fun v a h => ?_⟩ <;>
      rw [scan_ascii b rest hlt] at h
    · have := ihok (shift_ok_inv _ _ h)
      exact ValidUtf8.one (by omega) this
    · obtain ⟨v2, hs, rfl⟩ := shift_incomplete_inv _ _ _ _ h
      rw [List.take_succ_cons]
      exact ValidUtf8.one (by omega) (ihinc s v2 hs)
    · obtain ⟨v2, a2, hs, rfl, rfl⟩ := shift_error_inv _ _ _ _ h
      rw [List.take_succ_cons]
      exact ValidUtf8.one (by omega) (iherr v2 a2 hs)
  | case3 b rest hlt hw =>
    intro h256
    refine ⟨fun h => ?_, fun s v h => ?_, fun v a h => ?_⟩ <;>
      rw [scan_w0 b rest hlt hw] at h
    · simp at h
    · simp at h
    · simp only [ScanRes.error.injEq] at h
      obtain ⟨rfl, rfl⟩ := h
      exact ValidUtf8.nil
  | case4 b hlt hw =>
    intro h256
    refine ⟨fun h => ?_, fun s v h => ?_, fun v a h => ?_⟩ <;>
      rw [scan_one b hlt hw] at h
    · simp at h
    · simp only [ScanRes.incomplete.injEq] at h
      obtain ⟨rfl, rfl⟩ := h
      exact ValidUtf8.nil
    · simp at h
  | case5 f hlt hw s hv hgt =>
    intro h256
    refine ⟨fun h => ?_, fun s2 v h => ?_, fun v a h => ?_⟩ <;>
      rw [scan_two_end f s hlt hw hv hgt] at h
    · simp at h
    · simp only [ScanRes.incomplete.injEq] at h
      obtain ⟨rfl, rfl⟩ := h
      exact ValidUtf8.nil
    · simp at h
  | case6 f hlt hw s hv hgt t hc hgt3 =>
    intro h256
    refine ⟨fun h => ?_, fun s2 v h => ?_, fun v a h => ?_⟩ <;>
      rw [scan_three_end f s t hlt hw hv hgt hc hgt3] at h
    · simp at h
    · simp only [ScanRes.incomplete.injEq] at h
      obtain ⟨rfl, rfl⟩ := h
      exact ValidUtf8.nil
    · simp at h
  | case7 f hlt hw s hv hgt t hc hgt3 u rest hc4 ih =>
    intro h256
    have hs : s < 256 := h256 s (by simp)
    have ht : t < 256 := h256 t (by simp)
    have hu : u < 256 := h256 u (by simp)
    have hr : ∀ x ∈ rest, x < 256 := fun x hx => h256 x (by simp [hx])
    obtain ⟨ihok, ihinc, iherr⟩ := ih hr
    have hwf : width f = 4 := by
      have := width_le_4 f
      omega
    obtain ⟨hf1, hf2⟩ := (width_four_iff f).mp hwf
    have hsv : FourSecondOk f s := by
      rw [second_byte_valid, hwf] at hv
      simp at hv
      exact (four_bridge f s).mp hv
    have hct : IsCont t := (cont_bridge t ht).mp hc
    have hcu : IsCont u := (cont_bridge u hu).mp hc4
    refine ⟨fun h => ?_, fun s2 v h => ?_, fun v a h => ?_⟩ <;>
      rw [scan_four_done f s t u rest hlt hw hv hgt hc hgt3 hc4] at h
    · exact ValidUtf8.four hf1 hf2 hsv hct hcu (ihok (shift_ok_inv _ _ h))
    · obtain ⟨v2, hsc, rfl⟩ := shift_incomplete_inv _ _ _ _ h
      show ValidUtf8 ((f :: s :: t :: u :: rest).take (v2 + 3 + 1))
      rw [List.take_succ_cons]
      show ValidUtf8 (f :: (s :: t :: u :: rest).take (v2 + 2 + 1))
      rw [List.take_succ_cons]
      show ValidUtf8 (f :: s :: (t :: u :: rest).take (v2 + 1 + 1))
      rw [List.take_succ_cons]
      show ValidUtf8 (f :: s :: t :: (u :: rest).take (v2 + 0 + 1))
      rw [List.take_succ_cons]
      exact ValidUtf8.four hf1 hf2 hsv hct hcu (ihinc s2 v2 hsc)
    · obtain ⟨v2, a2, hsc, rfl, rfl⟩ := shift_error_inv _ _ _ _ h
      show ValidUtf8 ((f :: s :: t :: u :: rest).take (v2 + 3 + 1))
      rw [List.take_succ_cons]
      show ValidUtf8 (f :: (s :: t :: u :: rest).take (v2 + 2 + 1))
      rw [List.take_succ_cons]
      show ValidUtf8 (f :: s :: (t :: u :: rest).take (v2 + 1 + 1))
      rw [List.take_succ_cons]
      show ValidUtf8 (f :: s :: t :: (u :: rest).take (v2 + 0 + 1))
      rw [List.take_succ_cons]
      exact ValidUtf8.four hf1 hf2 hsv hct hcu (iherr v2 a2 hsc)
  | case8 f hlt hw s hv hgt t hc hgt3 u rest hc4 =>
    intro h256
    refine ⟨fun h => ?_, fun s2 v h => ?_, fun v a h => ?_⟩ <;>
      rw [scan_bad4 f s t u rest hlt hw hv hgt hc hgt3 hc4] at h
    · simp at h
    · simp at h
    · simp only [ScanRes.error.injEq] at h
      obtain ⟨rfl, rfl⟩ := h
      exact ValidUtf8.nil
  | case9 f hlt hw s hv hgt t rest hc hle ih =>
    intro h256
    have hs : s < 256 := h256 s (by simp)
    have ht : t < 256 := h256 t (by simp)
    have hr : ∀ x ∈ rest, x < 256 := fun x hx => h256 x (by simp [hx])
    obtain ⟨ihok, ihinc, iherr⟩ := ih hr
    have hwf : width f = 3 := by omega
    obtain ⟨hf1, hf2⟩ := (width_three_iff f).mp hwf
    have hsv : ThreeSecondOk f s := by
      rw [second_byte_valid, hwf] at hv
      simp at hv
      exact (three_bridge f s).mp hv
    have hct : IsCont t := (cont_bridge t ht).mp hc
    refine ⟨fun h => ?_, fun s2 v h => ?_, fun v a h => ?_⟩ <;>
      rw [scan_three_done f s t rest hlt hw hv hgt hc hle] at h
    · exact ValidUtf8.three hf1 hf2 hsv hct (ihok (shift_ok_inv _ _ h))
    · obtain ⟨v2, hsc, rfl⟩ := shift_incomplete_inv _ _ _ _ h
      show ValidUtf8 ((f :: s :: t :: rest).take (v2 + 2 + 1))
      rw [List.take_succ_cons]
      show ValidUtf8 (f :: (s :: t :: rest).take (v2 + 1 + 1))
      rw [List.take_succ_cons]
      show ValidUtf8 (f :: s :: (t :: rest).take (v2 + 0 + 1))
      rw [List.take_succ_cons]
      exact ValidUtf8.three hf1 hf2 hsv hct (ihinc s2 v2 hsc)
    · obtain ⟨v2, a2, hsc, rfl, rfl⟩ := shift_error_inv _ _ _ _ h
      show ValidUtf8 ((f :: s :: t :: rest).take (v2 + 2 + 1))
      rw [List.take_succ_cons]
      show ValidUtf8 (f :: (s :: t :: rest).take (v2 + 1 + 1))
      rw [List.take_succ_cons]
      show ValidUtf8 (f :: s :: (t :: rest).take (v2 + 0 + 1))
      rw [List.take_succ_cons]
      exact ValidUtf8.three hf1 hf2 hsv hct (iherr v2 a2 hsc)
  | case10 f hlt hw s hv hgt t rest hc =>
    intro h256
    refine ⟨fun h => ?_, fun s2 v h => ?_, fun v a h => ?_⟩ <;>
      rw [scan_bad3 f s t rest hlt hw hv hgt hc] at h
    · simp at h
    · simp at h
    · simp only [ScanRes.error.injEq] at h
      obtain ⟨rfl, rfl⟩ := h
      exact ValidUtf8.nil
  | case11 f hlt hw s rest hv hle ih =>
    intro h256
    have hs : s < 256 := h256 s (by simp)
    have hr : ∀ x ∈ rest, x < 256 := fun x hx => h256 x (by simp [hx])
    obtain ⟨ihok, ihinc, iherr⟩ := ih hr
    have hne1 : width f ≠ 1 := by
      rw [Ne, width_eq_one]
      exact hlt
    have hwf : width f = 2 := by omega
    obtain ⟨hf1, hf2⟩ := (width_two_iff f).mp hwf
    have hcs : IsCont s := by
      rw [second_byte_valid, hwf] at hv
      simp at hv
      exact (cont_bridge s hs).mp hv
    refine ⟨fun h => ?_, fun s2 v h => ?_, fun v a h => ?_⟩ <;>
      rw [scan_two_done f s rest hlt hw hv hle] at h
    · exact ValidUtf8.two hf1 hf2 hcs (ihok (shift_ok_inv _ _ h))
    · obtain ⟨v2, hsc, rfl⟩ := shift_incomplete_inv _ _ _ _ h
      show ValidUtf8 ((f :: s :: rest).take (v2 + 1 + 1))
      rw [List.take_succ_cons]
      show ValidUtf8 (f :: (s :: rest).take (v2 + 0 + 1))
      rw [List.take_succ_cons]
      exact ValidUtf8.two hf1 hf2 hcs (ihinc s2 v2 hsc)
    · obtain ⟨v2, a2, hsc, rfl, rfl⟩ := shift_error_inv _ _ _ _ h
      show ValidUtf8 ((f :: s :: rest).take (v2 + 1 + 1))
      rw [List.take_succ_cons]
      show ValidUtf8 (f :: (s :: rest).take (v2 + 0 + 1))
      rw [List.take_succ_cons]
      exact ValidUtf8.two hf1 hf2 hcs (iherr v2 a2 hsc)
  | case12 f hlt hw s rest hv =>
    intro h256
    refine ⟨fun h => ?_, fun s2 v h => ?_, fun v a h => ?_⟩ <;>
      rw [scan_bad2 f s rest hlt hw hv] at h
    · simp at h
    · simp at h
    · simp only [ScanRes.error.injEq] at h
      obtain ⟨rfl, rfl⟩ := h
      exact ValidUtf8.nil

/-- Completing a pending sequence keeps the spec invariant: a still-pending
state has all collected bytes validated, and a completed code point is the
full valid encoding of exactly one 2- to 4-byte code point. -/
theorem complete_good (d : IncompleteSequence) (input : List Nat)
    (hg : GoodPending d) (h256 : ∀ b ∈ input, b < 256) (hlen : 0 < d.len) :
    match IncompleteSequence.complete d input with
    | (d2, CompleteRes.incomplete) => GoodPending d2
    | (_, CompleteRes.error _) => True
    | (_, CompleteRes.ok ch _) => OneCodePointEnc ch := by
  obtain ⟨len, f, s2, t⟩ := d
  dsimp only at hlen
  rcases hg with h0 | ⟨h1, hw2⟩ | ⟨h2, hw3, hv2⟩ | ⟨h3, hw4, hv2, hc3, ht⟩
  · dsimp only at h0
    omega
  all_goals dsimp only at *
  · -- len = 1
    subst h1
    cases input with
    | nil =>
      simp only [IncompleteSequence.complete]
      exact Or.inr (Or.inl ⟨rfl, hw2⟩)
    | cons b2 rest =>
      have hb2 : b2 < 256 := h256 b2 (by simp)
      by_cases hv : second_byte_valid f b2 = true
      · by_cases hgt : width f > 2
        · cases rest with
          | nil =>
            simp only [IncompleteSequence.complete,
              IncompleteSequence.completeThird, hv, hgt]
            simp only [List.get?]
            simp [hv, hgt]
            exact Or.inr (Or.inr (Or.inl ⟨rfl, show 3 ≤ width f by omega, hv⟩))
          | cons b3 rest2 =>
            have hb3 : b3 < 256 := h256 b3 (by simp)
            by_cases hc : is_continuation_byte b3 = true
            · by_cases hgt3 : width f > 3
              · have hwf : width f = 4 := by
                  have := width_le_4 f
                  omega
                obtain ⟨hf1, hf2⟩ := (width_four_iff f).mp hwf
                have hsv : FourSecondOk f b2 := by
                  rw [second_byte_valid, hwf] at hv
                  simp at hv
                  exact (four_bridge f b2).mp hv
                cases rest2 with
                | nil =>
                  simp [IncompleteSequence.complete,
                    IncompleteSequence.completeThird,
                    IncompleteSequence.completeFourth, hv, hgt, hc, hgt3]
                  exact Or.inr (Or.inr (Or.inr ⟨rfl, hwf, hv, hc, hb3⟩))
                | cons b4 rest3 =>
                  have hb4 : b4 < 256 := h256 b4 (by simp)
                  by_cases hc4 : is_continuation_byte b4 = true
                  · simp [IncompleteSequence.complete,
                      IncompleteSequence.completeThird,
                      IncompleteSequence.completeFourth,
                      hv, hgt, hc, hgt3, hc4, hwf]
                    exact Or.inr (Or.inr ⟨f, b2, b3, b4, rfl, hf1, hf2, hsv,
                      (cont_bridge b3 hb3).mp hc, (cont_bridge b4 hb4).mp hc4⟩)
                  · simp [IncompleteSequence.complete,
                      IncompleteSequence.completeThird,
                      IncompleteSequence.completeFourth, hv, hgt, hc, hgt3, hc4]
              · have hwf : width f = 3 := by omega
                obtain ⟨hf1, hf2⟩ := (width_three_iff f).mp hwf
                have hsv : ThreeSecondOk f b2 := by
                  rw [second_byte_valid, hwf] at hv
                  simp at hv
                  exact (three_bridge f b2).mp hv
                simp [IncompleteSequence.complete,
                  IncompleteSequence.completeThird,
                  IncompleteSequence.completeFourth, hv, hgt, hc, hgt3, hwf]
                exact Or.inr (Or.inl ⟨f, b2, b3, rfl, hf1, hf2, hsv,
                  (cont_bridge b3 hb3).mp hc⟩)
            · simp [IncompleteSequence.complete,
                IncompleteSequence.completeThird, hv, hgt, hc]
        · have hwf : width f = 2 := by omega
          obtain ⟨hf1, hf2⟩ := (width_two_iff f).mp hwf
          have hcb2 : IsCont b2 := by
            rw [second_byte_valid, hwf] at hv
            simp at hv
            exact (cont_bridge b2 hb2).mp hv
          simp [IncompleteSequence.complete,
            IncompleteSequence.completeThird, hv, hgt, hwf]
          exact Or.inl ⟨f, b2, rfl, hf1, hf2, hcb2⟩
      · simp [IncompleteSequence.complete, hv]
  · -- len = 2
    subst h2
    have hgt : width f > 2 := by omega
    cases input with
    | nil =>
      simp [IncompleteSequence.complete, IncompleteSequence.completeThird, hgt]
      exact Or.inr (Or.inr (Or.inl ⟨rfl, hw3, hv2⟩))
    | cons b3 rest =>
      have hb3 : b3 < 256 := h256 b3 (by simp)
      by_cases hc : is_continuation_byte b3 = true
      · by_cases hgt3 : width f > 3
        · have hwf : width f = 4 := by
            have := width_le_4 f
            omega
          obtain ⟨hf1, hf2⟩ := (width_four_iff f).mp hwf
          have hsv : FourSecondOk f s2 := by
            rw [second_byte_valid, hwf] at hv2
            simp at hv2
            exact (four_bridge f s2).mp hv2
          cases rest with
          | nil =>
            simp [IncompleteSequence.complete,
              IncompleteSequence.completeThird,
              IncompleteSequence.completeFourth, hgt, hc, hgt3]
            exact Or.inr (Or.inr (Or.inr ⟨rfl, hwf, hv2, hc, hb3⟩))
          | cons b4 rest2 =>
            have hb4 : b4 < 256 := h256 b4 (by simp)
            by_cases hc4 : is_continuation_byte b4 = true
            · simp [IncompleteSequence.complete,
                IncompleteSequence.completeThird,
                IncompleteSequence.completeFourth, hgt, hc, hgt3, hc4, hwf]
              exact Or.inr (Or.inr ⟨f, s2, b3, b4, rfl, hf1, hf2, hsv,
                (cont_bridge b3 hb3).mp hc, (cont_bridge b4 hb4).mp hc4⟩)
            · simp [IncompleteSequence.complete,
                IncompleteSequence.completeThird,
                IncompleteSequence.completeFourth, hgt, hc, hgt3, hc4]
        · have hwf : width f = 3 := by omega
          obtain ⟨hf1, hf2⟩ := (width_three_iff f).mp hwf
          have hsv : ThreeSecondOk f s2 := by
            rw [second_byte_valid, hwf] at hv2
            simp at hv2
            exact (three_bridge f s2).mp hv2
          simp [IncompleteSequence.complete,
            IncompleteSequence.completeThird,
            IncompleteSequence.completeFourth, hgt, hc, hgt3, hwf]
          exact Or.inr (Or.inl ⟨f, s2, b3, rfl, hf1, hf2, hsv,
            (cont_bridge b3 hb3).mp hc⟩)
      · simp [IncompleteSequence.complete,
          IncompleteSequence.completeThird, hgt, hc]
  · -- len = 3
    subst h3
    have hgt : width f > 2 := by omega
    have hgt3 : width f > 3 := by omega
    obtain ⟨hf1, hf2⟩ := (width_four_iff f).mp hw4
    have hsv : FourSecondOk f s2 := by
      rw [second_byte_valid, hw4] at hv2
      simp at hv2
      exact (four_bridge f s2).mp hv2
    cases input with
    | nil =>
      simp [IncompleteSequence.complete, IncompleteSequence.completeThird,
        IncompleteSequence.completeFourth, hgt, hgt3]
      exact Or.inr (Or.inr (Or.inr ⟨rfl, hw4, hv2, hc3, ht⟩))
    | cons b4 rest =>
      have hb4 : b4 < 256 := h256 b4 (by simp)
      by_cases hc4 : is_continuation_byte b4 = true
      · simp [IncompleteSequence.complete, IncompleteSequence.completeThird,
          IncompleteSequence.completeFourth, hgt, hgt3, hc4, hw4]
        exact Or.inr (Or.inr ⟨f, s2, t, b4, rfl, hf1, hf2, hsv,
          (cont_bridge t ht).mp hc3, (cont_bridge b4 hb4).mp hc4⟩)
      · simp [IncompleteSequence.complete, IncompleteSequence.completeThird,
          IncompleteSequence.completeFourth, hgt, hgt3, hc4]

/-- The pending sequences stored by the scanner satisfy the spec invariant:
each collected byte passed its positional check. -/
theorem scan_incomplete_good (input : List Nat) (s : IncompleteSequence) :
    (∀ b ∈ input, b < 256) →
    ∀ v, scan input = ScanRes.incomplete s v → GoodPending s := by
  induction input using scan.induct with
  | case1 =>
    intro h256 v h
    rw [scan_nil] at h
    simp at h
  | case2 b rest hlt ih =>
    intro h256 v h
    rw [scan_ascii b rest hlt] at h
    obtain ⟨v2, hs, rfl⟩ := shift_incomplete_inv _ _ _ _ h
    exact ih (fun x hx => h256 x (by simp [hx])) v2 hs
  | case3 b rest hlt hw =>
    intro h256 v h
    rw [scan_w0 b rest hlt hw] at h
    simp at h
  | case4 b hlt hw =>
    intro h256 v h
    rw [scan_one b hlt hw] at h
    simp only [ScanRes.incomplete.injEq] at h
    obtain ⟨rfl, rfl⟩ := h
    have hne1 : width b ≠ 1 := by
      rw [Ne, width_eq_one]
      exact hlt
    exact Or.inr (Or.inl ⟨rfl, show 2 ≤ width b by omega⟩)
  | case5 f hlt hw s2 hv hgt =>
    intro h256 v h
    rw [scan_two_end f s2 hlt hw hv hgt] at h
    simp only [ScanRes.incomplete.injEq] at h
    obtain ⟨rfl, rfl⟩ := h
    exact Or.inr (Or.inr (Or.inl ⟨rfl, show 3 ≤ width f by omega, hv⟩))
  | case6 f hlt hw s2 hv hgt t hc hgt3 =>
    intro h256 v h
    rw [scan_three_end f s2 t hlt hw hv hgt hc hgt3] at h
    simp only [ScanRes.incomplete.injEq] at h
    obtain ⟨rfl, rfl⟩ := h
    have hwf : width f = 4 := by
      have := width_le_4 f
      omega
    exact Or.inr (Or.inr (Or.inr ⟨rfl, hwf, hv, hc, h256 t (by simp)⟩))
  | case7 f hlt hw s2 hv hgt t hc hgt3 u rest hc4 ih =>
    intro h256 v h
    rw [scan_four_done f s2 t u rest hlt hw hv hgt hc hgt3 hc4] at h
    obtain ⟨v2, hs, rfl⟩ := shift_incomplete_inv _ _ _ _ h
    exact ih (fun x hx => h256 x (by simp [hx])) v2 hs
  | case8 f hlt hw s2 hv hgt t hc hgt3 u rest hc4 =>
    intro h256 v h
    rw [scan_bad4 f s2 t u rest hlt hw hv hgt hc hgt3 hc4] at h
    simp at h
  | case9 f hlt hw s2 hv hgt t rest hc hle ih =>
    intro h256 v h
    rw [scan_three_done f s2 t rest hlt hw hv hgt hc hle] at h
    obtain ⟨v2, hs, rfl⟩ := shift_incomplete_inv _ _ _ _ h
    exact ih (fun x hx => h256 x (by simp [hx])) v2 hs
  | case10 f hlt hw s2 hv hgt t rest hc =>
    intro h256 v h
    rw [scan_bad3 f s2 t rest hlt hw hv hgt hc] at h
    simp at h
  | case11 f hlt hw s2 rest hv hle ih =>
    intro h256 v h
    rw [scan_two_done f s2 rest hlt hw hv hle] at h
    obtain ⟨v2, hs, rfl⟩ := shift_incomplete_inv _ _ _ _ h
    exact ih (fun x hx => h256 x (by simp [hx])) v2 hs
  | case12 f hlt hw s2 rest hv =>
    intro h256 v h
    rw [scan_bad2 f s2 rest hlt hw hv] at h
    simp at h

/-- C10 (well-formedness of all outputs): from any reachable decoder state
(the spec invariant `GoodPending`) and any chunk of bytes, the inline string
returned by `Decoder::decode` is empty or the complete valid encoding of
exactly one code point of 2 to 4 bytes, the borrowed slice is well-formed
UTF-8 per RFC 3629, and the invariant is preserved — so the internal
`str::from_utf8_unchecked` calls (including `InlineString`'s `Deref`) never
expose ill-formed text. -/
theorem decode_outputs_wellformed (d : IncompleteSequence) (input : List Nat)
    (hg : GoodPending d) (h256 : ∀ b ∈ input, b < 256) :
    ((Decoder.decode d input).2.1 = [] ∨
      OneCodePointEnc (Decoder.decode d input).2.1) ∧
    ValidUtf8 (Decoder.decode d input).2.2.1 ∧
    GoodPending (Decoder.decode d input).1 := by
  rcases hcomp : IncompleteSequence.complete d input with ⟨d2, cres⟩
  cases cres with
  | incomplete =>
    have hdec : Decoder.decode d input = (d2, [], [], DecodeRes.incomplete) := by
      unfold Decoder.decode
      rw [hcomp]
    rw [hdec]
    have hlen : 0 < d.len := by
      by_contra hz
      rw [complete_len_zero d input (by omega)] at hcomp
      simp at hcomp
    have hgood := complete_good d input hg h256 hlen
    rw [hcomp] at hgood
    exact ⟨Or.inl rfl, ValidUtf8.nil, hgood⟩
  | error rem =>
    have hdec : Decoder.decode d input = (d2, [], [], DecodeRes.error rem) := by
      unfold Decoder.decode
      rw [hcomp]
    rw [hdec]
    obtain ⟨-, hd2, -⟩ := complete_error_facts d input d2 rem hcomp
    exact ⟨Or.inl rfl, ValidUtf8.nil, Or.inl hd2⟩
  | ok ch rest =>
    have h256r : ∀ b ∈ rest, b < 256 := by
      rcases complete_ok_facts d input d2 ch rest hcomp with
        ⟨-, -, -, rfl⟩ | ⟨-, -, p, rfl⟩
      · exact h256
      · exact fun x hx => h256 x (List.drop_subset _ _ hx)
    have hch : ch = [] ∨ OneCodePointEnc ch := by
      by_cases hz : d.len = 0
      · rw [complete_len_zero d input hz] at hcomp
        obtain ⟨-, h2⟩ := Prod.mk.injEq .. ▸ hcomp
        obtain ⟨rfl, -⟩ := CompleteRes.ok.injEq .. ▸ h2.symm
        exact Or.inl rfl
      · have hgood := complete_good d input hg h256 (by omega)
        rw [hcomp] at hgood
        exact Or.inr hgood
    have hd2 : d2.len = 0 := by
      rcases complete_ok_facts d input d2 ch rest hcomp with
        ⟨hz, rfl, -, -⟩ | ⟨-, h2, -⟩
      · exact hz
      · exact h2
    obtain ⟨hvok, hvinc, hverr⟩ := scan_valid rest h256r
    rcases hscan : scan rest with _ | ⟨s, v⟩ | ⟨v, a⟩
    · have hdec : Decoder.decode d input = (d2, ch, rest, DecodeRes.ok) := by
        unfold Decoder.decode
        rw [hcomp]
        simp only [hscan]
      rw [hdec]
      exact ⟨hch, hvok hscan, Or.inl hd2⟩
    · have hdec : Decoder.decode d input =
          (s, ch, rest.take v, DecodeRes.incomplete) := by
        unfold Decoder.decode
        rw [hcomp]
        simp only [hscan]
      rw [hdec]
      exact ⟨hch, hvinc s v hscan, scan_incomplete_good rest s h256r v hscan⟩
    · have hdec : Decoder.decode d input =
          (d2, ch, rest.take v, DecodeRes.error (rest.drop a)) := by
        unfold Decoder.decode
        rw [hcomp]
        simp only [hscan]
      rw [hdec]
      exact ⟨hch, hverr v a hscan, Or.inl hd2⟩

theorem decode_outputs_wellformed_witness :
    GoodPending ⟨3, 0xF0, 0x90, 0x80⟩ ∧
    (∀ b ∈ [0x80, 0x61, 0xC3], b < 256) ∧
    (((Decoder.decode ⟨3, 0xF0, 0x90, 0x80⟩ [0x80, 0x61, 0xC3]).2.1 = [] ∨
      OneCodePointEnc
        (Decoder.decode ⟨3, 0xF0, 0x90, 0x80⟩ [0x80, 0x61, 0xC3]).2.1) ∧
    ValidUtf8 (Decoder.decode ⟨3, 0xF0, 0x90, 0x80⟩ [0x80, 0x61, 0xC3]).2.2.1 ∧
    GoodPending (Decoder.decode ⟨3, 0xF0, 0x90, 0x80⟩ [0x80, 0x61, 0xC3]).1) :=
  ⟨by decide, by decide,
    decode_outputs_wellformed ⟨3, 0xF0, 0x90, 0x80⟩ [0x80, 0x61, 0xC3]
      (by decide) (by decide)⟩

end Utf8
